import Mathlib

/-!
Verification of the reaching-definitions optimizer (`opt-for-lang2`).

This file is a shallow embedding of the Rust sources:
  * `src/ir.rs`     : expressions, statements, basic-block segmenter
  * `src/graph.rs`  : directed graph container
  * `src/lib.rs`    : CFG builder, reaching-definitions solver, propagation rewriter
  * `src/vm.rs`     : lowering to the stack VM and the VM interpreter

Modelling conventions:
  * Rust panics (`HashMap` indexing with a missing key, out-of-range indices,
    `usize` underflow, the constant evaluator on non-constant input) are
    modelled as `none` of an `Option` result.
  * `HashSet<usize>` becomes `Finset ℕ`; `HashMap` becomes an association
    list (`assocGet`/`assocPut`), last-insert-wins like `HashMap::insert`.
  * `i64` arithmetic is wrap-around two's complement, made explicit through
    `wrap64` (release-mode Rust semantics; the spec fixes wrap-around).
  * the unbounded iteration of the dataflow solver and of the VM interpreter
    take an explicit fuel argument; running out of fuel gives `none`.
-/

set_option maxRecDepth 100000
set_option maxHeartbeats 2000000

namespace OptForLang2

/-- Wrap an unbounded integer into two's-complement 64-bit range, the result of
Rust release-mode `i64` addition/multiplication. -/
def wrap64 (x : ℤ) : ℤ := (x + 2 ^ 63) % 2 ^ 64 - 2 ^ 63

/-- `ir.rs`: a label's identity is the `usize` value of the global counter that
minted it. -/
abbrev Label := ℕ

/-- `ir.rs` `enum Expr`. The `Int` payload is an `i64`, modelled as an
unbounded integer; `Expr.wf64` states the range constraint on literals. -/
inductive Expr where
  | Int : ℤ → Expr
  | Add : Expr → Expr → Expr
  | Mul : Expr → Expr → Expr
  | LoadCopy : ℤ → Expr
deriving DecidableEq

/-- `ir.rs` `Expr::is_const`. -/
def Expr.is_const : Expr → Bool
  | .Int _ => true
  | .Add lhs rhs => lhs.is_const && rhs.is_const
  | .Mul lhs rhs => lhs.is_const && rhs.is_const
  | .LoadCopy _ => false

/-- `ir.rs` `Expr::to_value`; panics (`none`) on a non-constant expression,
wraps on `i64` overflow. -/
def Expr.to_value : Expr → Option ℤ
  | .Int n => some n
  | .Add lhs rhs => do
    let a ← lhs.to_value
    let b ← rhs.to_value
    pure (wrap64 (a + b))
  | .Mul lhs rhs => do
    let a ← lhs.to_value
    let b ← rhs.to_value
    pure (wrap64 (a * b))
  | .LoadCopy _ => none

/-- Every `Int` literal of the expression is in `i64` range (automatically true
of the Rust data type, where the payload has type `i64`). -/
def Expr.wf64 : Expr → Bool
  | .Int n => decide (-(2 ^ 63) ≤ n) && decide (n < 2 ^ 63)
  | .Add lhs rhs => lhs.wf64 && rhs.wf64
  | .Mul lhs rhs => lhs.wf64 && rhs.wf64
  | .LoadCopy _ => true

/-- `ir.rs` `enum Stmt`. -/
inductive Stmt where
  | Store : ℤ → OptForLang2.Expr → Stmt
  | Expr : OptForLang2.Expr → Stmt
  | Label : OptForLang2.Label → Stmt
  | Jump : OptForLang2.Label → Stmt
  | JumpIfZero : OptForLang2.Expr → OptForLang2.Label → Stmt
  | Print : OptForLang2.Expr → Stmt
deriving DecidableEq

/-- `ir.rs` `Stmt::is_label`. -/
def Stmt.is_label : Stmt → Bool
  | .Label _ => true
  | _ => false

/-- `ir.rs` `Stmt::is_jump`. -/
def Stmt.is_jump : Stmt → Bool
  | .Jump _ => true
  | .JumpIfZero _ _ => true
  | _ => false

/-- Association-list model of `HashMap` lookup. -/
def assocGet {α β : Type} [DecidableEq α] (m : List (α × β)) (k : α) : Option β :=
  match m with
  | [] => none
  | (k₂, v) :: rest => if k = k₂ then some v else assocGet rest k

/-- Association-list model of `HashMap::insert` (replaces an existing binding). -/
def assocPut {α β : Type} [DecidableEq α] (m : List (α × β)) (k : α) (v : β) :
    List (α × β) :=
  match m with
  | [] => [(k, v)]
  | (k₂, v₂) :: rest => if k = k₂ then (k, v) :: rest else (k₂, v₂) :: assocPut rest k v

/-- `graph.rs` `DirectedGraph<T>`: node payloads plus successor and predecessor
index sets. -/
structure DirectedGraph (T : Type) where
  nodes : List T
  succ : List (Finset ℕ)
  pred : List (Finset ℕ)
deriving DecidableEq

/-- `DirectedGraph::new`. -/
def DirectedGraph.empty {T : Type} : DirectedGraph T := ⟨[], [], []⟩

/-- `DirectedGraph::len`. -/
def DirectedGraph.len {T : Type} (g : DirectedGraph T) : ℕ := g.nodes.length

/-- `DirectedGraph::add`: append a node with empty adjacency sets, return the
new graph and the node's index. -/
def DirectedGraph.add {T : Type} (g : DirectedGraph T) (v : T) : DirectedGraph T × ℕ :=
  (⟨g.nodes ++ [v], g.succ ++ [∅], g.pred ++ [∅]⟩, g.nodes.length)

/-- `DirectedGraph::add_edge`; panics (`none`) when either endpoint is out of
range, otherwise inserts into both adjacency sets. -/
def DirectedGraph.add_edge {T : Type} (g : DirectedGraph T) (fr dst : ℕ) :
    Option (DirectedGraph T) :=
  if fr < g.nodes.length then
    if dst < g.nodes.length then
      some { g with
        succ := g.succ.set fr (insert dst (g.succ.getD fr ∅))
        pred := g.pred.set dst (insert fr (g.pred.getD dst ∅)) }
    else none
  else none

/-- `DirectedGraph::succ_indexes`. -/
def DirectedGraph.succ_indexes {T : Type} (g : DirectedGraph T) (i : ℕ) : Finset ℕ :=
  g.succ.getD i ∅

/-- `DirectedGraph::pred_indexes`. -/
def DirectedGraph.pred_indexes {T : Type} (g : DirectedGraph T) (i : ℕ) : Finset ℕ :=
  g.pred.getD i ∅

/-- One iteration of the first loop of `lib.rs` `code_to_graph`: add the
statement as a node; if it is a `Label`, record its index
(`HashMap::insert`, so a repeated label silently keeps the last index). -/
def ctg_step (acc : DirectedGraph Stmt × List (Label × ℕ)) (stmt : Stmt) :
    DirectedGraph Stmt × List (Label × ℕ) :=
  match stmt with
  | Stmt.Label name =>
    let r := acc.1.add stmt
    (r.1, assocPut acc.2 name r.2)
  | _ => ((acc.1.add stmt).1, acc.2)

/-- First loop of `code_to_graph`. -/
def code_to_graph_nodes (code : List Stmt) : DirectedGraph Stmt × List (Label × ℕ) :=
  code.foldl ctg_step (DirectedGraph.empty, [])

/-- First half of the second loop's body at one index: the jump edge when the
node is a jump (`labels[name]` panics when the label is undefined). -/
def add_jump_edge (labels : List (Label × ℕ)) (g : DirectedGraph Stmt) (index : ℕ) :
    Option (DirectedGraph Stmt) :=
  match g.nodes[index]? with
  | some (Stmt.Jump name) | some (Stmt.JumpIfZero _ name) =>
    match assocGet labels name with
    | some dest => g.add_edge index dest
    | none => none
  | some _ => some g
  | none => none

/-- Second half of the second loop's body: the fall-through edge from the
previous index, unless that node is an unconditional `Jump`. -/
def add_fallthrough_edge (g : DirectedGraph Stmt) (index : ℕ) :
    Option (DirectedGraph Stmt) :=
  match index with
  | 0 => some g
  | prev + 1 =>
    match g.nodes[prev]? with
    | some (Stmt.Jump _) => some g
    | some _ => g.add_edge prev (prev + 1)
    | none => none

/-- Body of the second loop of `code_to_graph`, at one index. -/
def add_edges_at (labels : List (Label × ℕ)) (g : DirectedGraph Stmt) (index : ℕ) :
    Option (DirectedGraph Stmt) :=
  (add_jump_edge labels g index).bind fun g₁ => add_fallthrough_edge g₁ index

/-- The second loop of `code_to_graph`, over a list of indices. -/
def add_edges_loop (labels : List (Label × ℕ)) :
    DirectedGraph Stmt → List ℕ → Option (DirectedGraph Stmt)
  | g, [] => some g
  | g, i :: rest =>
    match add_edges_at labels g i with
    | some g₂ => add_edges_loop labels g₂ rest
    | none => none

/-- `lib.rs` `code_to_graph`. -/
def code_to_graph (code : List Stmt) : Option (DirectedGraph Stmt) :=
  let r := code_to_graph_nodes code
  add_edges_loop r.2 r.1 (List.range r.1.len)

/-- Well-formedness of the adjacency structure: both adjacency vectors have
one entry per node, every recorded edge is between in-range indices, and the
predecessor sets are exactly the inverse of the successor sets.  This holds of
every graph built through `add` and `add_edge`. -/
def edges_ok {T : Type} (g : DirectedGraph T) : Prop :=
  g.succ.length = g.nodes.length ∧ g.pred.length = g.nodes.length ∧
  (∀ p q, q ∈ g.succ.getD p ∅ →
    p < g.nodes.length ∧ q < g.nodes.length ∧ p ∈ g.pred.getD q ∅) ∧
  (∀ p q, p ∈ g.pred.getD q ∅ → q ∈ g.succ.getD p ∅)

/-- The label names declared by `Label` statements, in order. -/
def label_names (code : List Stmt) : List ℕ :=
  code.filterMap fun s =>
    match s with
    | Stmt.Label name => some name
    | _ => none

/-- The label names referenced by `Jump` and `JumpIfZero` statements. -/
def jump_targets (code : List Stmt) : List ℕ :=
  code.filterMap fun s =>
    match s with
    | Stmt.Jump name => some name
    | Stmt.JumpIfZero _ name => some name
    | _ => none

/-- The program invariant assumed by the CFG builder: no label is declared
twice, and every jump target is declared. -/
def wf_labels (code : List Stmt) : Prop :=
  (label_names code).Nodup ∧ ∀ name ∈ jump_targets code, name ∈ label_names code

/-- Is this (optional) statement an unconditional `Jump`?  Only those suppress
the fall-through edge. -/
def is_jump_uncond : Option Stmt → Bool
  | some (Stmt.Jump _) => true
  | _ => false

/-- The jump edge contributed by node `i`: the singleton of the label map's
entry for the target label when node `i` is a `Jump` or `JumpIfZero`. -/
def jump_part (labels : List (Label × ℕ)) (code : List Stmt) (i : ℕ) : Finset ℕ :=
  match code[i]? with
  | some (Stmt.Jump name) =>
    match assocGet labels name with
    | some dest => {dest}
    | none => ∅
  | some (Stmt.JumpIfZero _ name) =>
    match assocGet labels name with
    | some dest => {dest}
    | none => ∅
  | _ => ∅

/-- The successor set of node `i` after the edge loop has processed indices
`0, …, k-1`: the jump edge once `i` itself is processed, and the fall-through
edge to `i+1` once `i+1` is processed (unless node `i` is an unconditional
jump). -/
def partial_succ (labels : List (Label × ℕ)) (code : List Stmt) (k i : ℕ) : Finset ℕ :=
  (if i < k then jump_part labels code i else ∅) ∪
  (if i + 1 < k ∧ is_jump_uncond code[i]? = false then {i + 1} else ∅)

/-- `ir.rs` `BasicBlock`. -/
structure BasicBlock where
  stmts : List Stmt
deriving DecidableEq

/-- One iteration of the loop in `ir.rs` `stmts_to_bbs`.  State: finished
blocks, the current open block, and the fresh-label counter (`NEXT_LABEL`).
In the source the `Stmt::Label` arm carries the guard `if !is_jump`, which is
always true of a label, so it is dropped here. -/
def bbs_step (st : List BasicBlock × Option BasicBlock × ℕ) (stmt : Stmt) :
    List BasicBlock × Option BasicBlock × ℕ :=
  match st with
  | (bbs, some curr, c) =>
    match stmt with
    | Stmt.Label label =>
      (bbs ++ [⟨curr.stmts ++ [Stmt.Jump label]⟩], some ⟨[stmt]⟩, c)
    | _ =>
      if stmt.is_jump then (bbs ++ [⟨curr.stmts ++ [stmt]⟩], none, c)
      else (bbs, some ⟨curr.stmts ++ [stmt]⟩, c)
  | (bbs, none, c) =>
    if stmt.is_label then (bbs, some ⟨[stmt]⟩, c)
    else (bbs, some ⟨[Stmt.Label c, stmt]⟩, c + 1)

/-- The loop of `stmts_to_bbs`. -/
def bbs_loop : List Stmt → List BasicBlock × Option BasicBlock × ℕ →
    List BasicBlock × Option BasicBlock × ℕ
  | [], st => st
  | stmt :: rest, st => bbs_loop rest (bbs_step st stmt)

/-- `ir.rs` `stmts_to_bbs`.  The global atomic label counter is threaded
explicitly: the second component of the result is the counter after the call. -/
def stmts_to_bbs (stmts : List Stmt) (counter : ℕ) : List BasicBlock × ℕ :=
  let r := bbs_loop stmts ([], none, counter)
  (r.1 ++ r.2.1.toList, r.2.2)

/-- `lib.rs` `struct Optimizer`. -/
structure Optimizer where
  in_defs : List (Finset ℕ)
  out_defs : List (Finset ℕ)
  defs : List (ℤ × Finset ℕ)
  def_exprs : List (ℕ × OptForLang2.Expr)
  code : DirectedGraph Stmt
deriving DecidableEq

/-- `Optimizer::new`; `none` when `code_to_graph` aborts. -/
def Optimizer.new (code : List Stmt) : Option Optimizer :=
  (code_to_graph code).map fun g =>
    { in_defs := List.replicate code.length ∅
      out_defs := List.replicate code.length ∅
      defs := []
      def_exprs := []
      code := g }

/-- `lib.rs` `Optimizer::optimize_expr` (rewriting a sub-expression at
statement index `i`).  `none` models the panic of `self.defs[&loc]` when the
copied-from slot has no definition at all. -/
def Optimizer.optimize_expr (o : Optimizer) (i : ℕ) :
    OptForLang2.Expr → Option OptForLang2.Expr
  | Expr.LoadCopy loc =>
    match assocGet o.defs loc with
    | none => some (Expr.LoadCopy loc)
    | some defs =>
      let in_defs := o.in_defs.getD i ∅
      let reached_defs := defs ∩ in_defs
      if reached_defs.card = 1 then
        -- `into_iter().next().unwrap()`: the unique element of the singleton
        -- set, extracted as its supremum
        let only_def := reached_defs.sup id
        match assocGet o.def_exprs only_def with
          | none => none
          | some new_expr =>
            match new_expr with
            | Expr.LoadCopy loc₂ =>
              match assocGet o.defs loc₂ with
              | none => none
              | some dl₂ =>
                let reached₂ := dl₂ ∩ o.in_defs.getD only_def ∅
                let blocking := (in_defs ∩ dl₂) \ reached₂
                if blocking = ∅ then some (Expr.LoadCopy loc₂)
                else
                  -- falls through to the constant check; a `LoadCopy` is
                  -- never constant, so the expression is left unchanged
                  some (Expr.LoadCopy loc)
            | _ =>
              if new_expr.is_const then new_expr.to_value.map Expr.Int
              else some (Expr.LoadCopy loc)
      else some (Expr.LoadCopy loc)
  | Expr.Add lhs rhs => do
    let l ← o.optimize_expr i lhs
    let r ← o.optimize_expr i rhs
    let e := Expr.Add l r
    if e.is_const then e.to_value.map Expr.Int else pure e
  | Expr.Mul lhs rhs => do
    let l ← o.optimize_expr i lhs
    let r ← o.optimize_expr i rhs
    let e := Expr.Mul l r
    if e.is_const then e.to_value.map Expr.Int else pure e
  | Expr.Int n => some (Expr.Int n)

/-- `lib.rs` `Optimizer::optimize_stmt`: only `Store`, `Expr` and `JumpIfZero`
statements have their expression rewritten. -/
def Optimizer.optimize_stmt (o : Optimizer) (i : ℕ) : Stmt → Option Stmt
  | Stmt.Store loc expr => (o.optimize_expr i expr).map (Stmt.Store loc)
  | Stmt.Expr expr => (o.optimize_expr i expr).map Stmt.Expr
  | Stmt.JumpIfZero expr label => (o.optimize_expr i expr).map (Stmt.JumpIfZero · label)
  | s => some s

/-- `self.defs.entry(*loc).or_insert(HashSet::new()).insert(i)`. -/
def defs_insert (m : List (ℤ × Finset ℕ)) (loc : ℤ) (i : ℕ) : List (ℤ × Finset ℕ) :=
  match assocGet m loc with
  | some s => assocPut m loc (insert i s)
  | none => assocPut m loc {i}

/-- Preprocessing scan of `calc_reaching_definition`: record, per slot, the set
of store indices, and per store index its right-hand expression. -/
def Optimizer.populate (o : Optimizer) : Optimizer :=
  let r := o.code.nodes.enum.foldl
    (fun acc p =>
      match p.2 with
      | Stmt.Store loc e => (defs_insert acc.1 loc p.1, assocPut acc.2 p.1 e)
      | _ => acc)
    (o.defs, o.def_exprs)
  { o with defs := r.1, def_exprs := r.2 }

/-- The gen and kill sets at node `i`: `({i}, defs[slot] \ {i})` at a
`Store(slot, _)` node, `(∅, ∅)` otherwise.  `none` models the panics of
`self.code[i]` and `self.defs[&loc]`. -/
def rd_gen_kill (o : Optimizer) (i : ℕ) : Option (Finset ℕ × Finset ℕ) :=
  match o.code.nodes[i]? with
  | some (Stmt.Store loc _) =>
    match assocGet o.defs loc with
    | some dl => some ({i}, dl \ {i})
    | none => none
  | some _ => some (∅, ∅)
  | none => none

/-- `in[i] = ⋃ out[p] over p ∈ pred(i)`: the meet (union) over predecessors,
read off the current state. -/
def rd_new_in (o : Optimizer) (i : ℕ) : Finset ℕ :=
  (o.code.pred_indexes i).sup fun p => o.out_defs.getD p ∅

/-- Body of the dataflow sweep at node `i`:
`in[i] := ⋃ out[p] over p ∈ pred(i)` then `out[i] := gen[i] ∪ (in[i] \ kill[i])`,
updating the state in place (later nodes of the same sweep observe the update). -/
def rd_step (o : Optimizer) (i : ℕ) : Option Optimizer :=
  match rd_gen_kill o i with
  | some gk =>
    some { o with
      in_defs := o.in_defs.set i (rd_new_in o i)
      out_defs := o.out_defs.set i (gk.1 ∪ (rd_new_in o i \ gk.2)) }
  | none => none

/-- One full sweep of `calc_reaching_definition` over a list of node indices. -/
def rd_pass_aux : Optimizer → List ℕ → Option Optimizer
  | o, [] => some o
  | o, i :: rest =>
    match rd_step o i with
    | some o₂ => rd_pass_aux o₂ rest
    | none => none

/-- One full sweep in increasing index order. -/
def rd_pass (o : Optimizer) : Option Optimizer :=
  rd_pass_aux o (List.range o.code.len)

/-- The fixed-point loop of `calc_reaching_definition`: sweep until neither
`in` nor `out` changes; fuel bounds the number of sweeps. -/
def rd_loop : ℕ → Optimizer → Option Optimizer
  | 0, _ => none
  | fuel + 1, o =>
    match rd_pass o with
    | none => none
    | some o₂ =>
      if o₂.in_defs = o.in_defs ∧ o₂.out_defs = o.out_defs then some o₂
      else rd_loop fuel o₂

/-- `lib.rs` `Optimizer::calc_reaching_definition`. -/
def calc_reaching_definition (fuel : ℕ) (o : Optimizer) : Option Optimizer :=
  rd_loop fuel o.populate

/-- `lib.rs` `Optimizer::optimize`: solve reaching definitions, then rewrite a
clone of every statement (the diagnostic printing of the analysis result is an
external side effect and not modelled). -/
def Optimizer.optimize (fuel : ℕ) (o : Optimizer) : Option (List Stmt) := do
  let o₂ ← calc_reaching_definition fuel o
  (List.range o₂.code.len).mapM fun i => do
    let s ← o₂.code.nodes[i]?
    o₂.optimize_stmt i s

/-- `Optimizer::new(code).optimize()`. -/
def optimize (fuel : ℕ) (code : List Stmt) : Option (List Stmt) := do
  let o ← Optimizer.new code
  o.optimize fuel

/-! ### The stack VM (`vm.rs`) -/

/-- `vm.rs` `enum Inst`.  In `Jump`/`JumpIfZero` the payload is a label name
before patching and an instruction address after patching, as in the source. -/
inductive Inst where
  | Int : ℤ → Inst
  | Add : Inst
  | Mul : Inst
  | Store : ℤ → Inst
  | LoadCopy : ℤ → Inst
  | Jump : ℕ → Inst
  | JumpIfZero : ℕ → Inst
  | Call : ℕ → Inst
deriving DecidableEq

/-- `vm.rs` `expr_to_insts` (the mutated `Vec` is the accumulator). -/
def expr_to_insts (insts : List Inst) : OptForLang2.Expr → List Inst
  | .Int n => insts ++ [Inst.Int n]
  | .Add lhs rhs => expr_to_insts (expr_to_insts insts lhs) rhs ++ [Inst.Add]
  | .Mul lhs rhs => expr_to_insts (expr_to_insts insts lhs) rhs ++ [Inst.Mul]
  | .LoadCopy loc => insts ++ [Inst.LoadCopy loc]

/-- `vm.rs` `stmt_to_insts`. -/
def stmt_to_insts (insts : List Inst) (labels : List (ℕ × ℕ)) :
    Stmt → List Inst × List (ℕ × ℕ)
  | Stmt.Expr e => (expr_to_insts insts e, labels)
  | Stmt.Store loc e => (expr_to_insts insts e ++ [Inst.Store loc], labels)
  | Stmt.Label name => (insts, assocPut labels name insts.length)
  | Stmt.Jump name => (insts ++ [Inst.Jump name], labels)
  | Stmt.JumpIfZero e name => (expr_to_insts insts e ++ [Inst.JumpIfZero name], labels)
  | Stmt.Print e => (expr_to_insts insts e ++ [Inst.Call 0], labels)

/-- `vm.rs` `ir_to_insts`: emit, then patch jump targets through the label
table (`labels[loc]` panics when a target label was never declared). -/
def ir_to_insts (stmts : List Stmt) : Option (List Inst) :=
  let r := stmts.foldl (fun acc s => stmt_to_insts acc.1 acc.2 s) ([], [])
  r.1.mapM fun inst =>
    match inst with
    | Inst.Jump loc => (assocGet r.2 loc).map Inst.Jump
    | Inst.JumpIfZero loc => (assocGet r.2 loc).map Inst.JumpIfZero
    | i => some i

/-- Observable events of a VM execution: writes to variable slots and printed
values. -/
inductive Event where
  | store : ℤ → ℤ → Event
  | print : ℤ → Event
deriving DecidableEq

/-- `vm.rs` `struct VM` plus the interpreter registers `ip`, `sp` and the
observable event trace.  The source field `variables` is renamed `vars`
(`variables` is reserved in Lean). -/
structure VMState where
  vars : List ℤ
  stack : List ℤ
  ip : ℕ
  sp : ℕ
  events : List Event
deriving DecidableEq

/-- `VM::new` at the entry of `run`: 50 zeroed variables, 500 zeroed stack
cells, `ip = sp = 0`. -/
def VMState.init : VMState := ⟨List.replicate 50 0, List.replicate 500 0, 0, 0, []⟩

/-- `vm.rs` `VM::run` with fuel.  `none` models a panic (index out of range,
`usize` underflow of `sp`, unknown call id) or fuel exhaustion; `some events`
is a normal termination (`ip` ran past the end of the code).  Note the
faithful `continue` of the `JumpIfZero` arm: `ip` is not advanced even when
the condition is non-zero. -/
def vm_run : ℕ → List Inst → VMState → Option (List Event)
  | 0, _, _ => none
  | fuel + 1, code, s =>
    match code[s.ip]? with
    | none => some s.events
    | some (Inst.Int n) =>
      if s.sp + 1 < 500 then
        vm_run fuel code
          { s with sp := s.sp + 1, stack := s.stack.set (s.sp + 1) n, ip := s.ip + 1 }
      else none
    | some Inst.Add =>
      match s.sp with
      | 0 => none
      | sp₂ + 1 =>
        match s.stack[sp₂]?, s.stack[sp₂ + 1]? with
        | some a, some b =>
          vm_run fuel code
            { s with stack := s.stack.set sp₂ (wrap64 (a + b)), sp := sp₂, ip := s.ip + 1 }
        | _, _ => none
    | some Inst.Mul =>
      match s.sp with
      | 0 => none
      | sp₂ + 1 =>
        match s.stack[sp₂]?, s.stack[sp₂ + 1]? with
        | some a, some b =>
          vm_run fuel code
            { s with stack := s.stack.set sp₂ (wrap64 (a * b)), sp := sp₂, ip := s.ip + 1 }
        | _, _ => none
    | some (Inst.Store loc) =>
      if 0 ≤ loc ∧ loc < 50 then
        match s.sp, s.stack[s.sp]? with
        | sp₂ + 1, some v =>
          vm_run fuel code
            { s with vars := s.vars.set loc.toNat v, sp := sp₂,
                     events := s.events ++ [Event.store loc v], ip := s.ip + 1 }
        | _, _ => none
      else none
    | some (Inst.LoadCopy loc) =>
      if 0 ≤ loc ∧ loc < 50 then
        if s.sp + 1 < 500 then
          vm_run fuel code
            { s with sp := s.sp + 1,
                     stack := s.stack.set (s.sp + 1) (s.vars.getD loc.toNat 0),
                     ip := s.ip + 1 }
        else none
      else none
    | some (Inst.Jump loc) => vm_run fuel code { s with ip := loc }
    | some (Inst.JumpIfZero loc) =>
      match s.stack[s.sp]? with
      | some v =>
        match s.sp with
        | 0 => none
        | sp₂ + 1 =>
          vm_run fuel code { s with ip := if v = 0 then loc else s.ip, sp := sp₂ }
      | none => none
    | some (Inst.Call id) =>
      if id = 0 then
        match s.sp, s.stack[s.sp]? with
        | sp₂ + 1, some v =>
          vm_run fuel code
            { s with sp := sp₂, events := s.events ++ [Event.print v], ip := s.ip + 1 }
        | _, _ => none
      else none

/-- The sequence of values stored to one slot during an execution. -/
def stored_values (slot : ℤ) (events : List Event) : List ℤ :=
  events.filterMap fun e =>
    match e with
    | Event.store l v => if l = slot then some v else none
    | _ => none

/-- The sequence of printed values of an execution. -/
def print_values (events : List Event) : List ℤ :=
  events.filterMap fun e =>
    match e with
    | Event.print v => some v
    | _ => none

/-- Lower a statement list and run it on a fresh VM. -/
def run_program (fuel : ℕ) (code : List Stmt) : Option (List Event) := do
  let insts ← ir_to_insts code
  vm_run fuel insts VMState.init

/-! ### Concrete programs used to settle the claims -/

/-- A program with a statically present but never executed back edge: the
`JumpIfZero` condition is always `0`, so execution always jumps to `L1` and
the back edge `Jump L0` is dead.  Statically, the in-loop `Store(1, Int 9)`
reaches the head of the loop, which fools the copy-propagation safety test. -/
def prog1 : List Stmt :=
  [Stmt.Store 1 (Expr.Int 5), Stmt.Label 0, Stmt.Store 0 (Expr.LoadCopy 1),
   Stmt.Store 1 (Expr.Int 9), Stmt.JumpIfZero (Expr.Int 0) 1, Stmt.Jump 0,
   Stmt.Label 1, Stmt.Store 3 (Expr.LoadCopy 0)]

/-- `optimize prog1`: the final statement has been rewritten to read slot 1,
although slot 1 is redefined (index 3) between the copy (index 2) and the
use (index 7). -/
def prog1_opt : List Stmt :=
  [Stmt.Store 1 (Expr.Int 5), Stmt.Label 0, Stmt.Store 0 (Expr.LoadCopy 1),
   Stmt.Store 1 (Expr.Int 9), Stmt.JumpIfZero (Expr.Int 0) 1, Stmt.Jump 0,
   Stmt.Label 1, Stmt.Store 3 (Expr.LoadCopy 1)]

/-- Minimal program whose use at index 1 has the unique reaching definition
`Store(1, LoadCopy(-1))`, a copy of a slot that is never stored. -/
def prog2 : List Stmt :=
  [Stmt.Store 1 (Expr.LoadCopy (-1)), Stmt.Expr (Expr.LoadCopy 1)]

/-- End-to-end scenario 1 of the spec (the example program of `main.rs`). -/
def prog3 : List Stmt :=
  [Stmt.Store 0 (Expr.Int 10), Stmt.Store 0 (Expr.Int 40),
   Stmt.Store 1 (Expr.LoadCopy (-1)), Stmt.Store 2 (Expr.LoadCopy 0),
   Stmt.Expr (Expr.Add (Expr.LoadCopy 2) (Expr.Mul (Expr.Int 20) (Expr.LoadCopy 1)))]

/-- End-to-end scenario 3 of the spec. -/
def prog4 : List Stmt :=
  [Stmt.Store 0 (Expr.Int 10), Stmt.Store 0 (Expr.Int 20),
   Stmt.Store 1 (Expr.LoadCopy 0), Stmt.Store 2 (Expr.Add (Expr.LoadCopy 1) (Expr.Int 5))]

/-- What `optimize` actually returns on `prog4`: the fourth right-hand side is
copy-propagated to `LoadCopy(0)`, not folded to `Int 25`. -/
def prog4_actual : List Stmt :=
  [Stmt.Store 0 (Expr.Int 10), Stmt.Store 0 (Expr.Int 20),
   Stmt.Store 1 (Expr.Int 20), Stmt.Store 2 (Expr.Add (Expr.LoadCopy 0) (Expr.Int 5))]

/-- The output the claim expects on `prog4`. -/
def prog4_claimed : List Stmt :=
  [Stmt.Store 0 (Expr.Int 10), Stmt.Store 0 (Expr.Int 20),
   Stmt.Store 1 (Expr.Int 20), Stmt.Store 2 (Expr.Int 25)]

/-- `optimize prog4_actual`: a second application folds further. -/
def prog4_twice : List Stmt := prog4_claimed

/-- A four-statement program with a conditional jump, exercising a node with
two predecessors; used to instantiate the reaching-definitions fixed-point
theorem. -/
def prog5 : List Stmt :=
  [Stmt.Store 0 (Expr.Int 1), Stmt.JumpIfZero (Expr.LoadCopy 0) 7,
   Stmt.Store 0 (Expr.Int 2), Stmt.Label 7]

/-- The optimizer state freshly built on `prog5`. -/
def o5 : Optimizer := (Optimizer.new prog5).getD ⟨[], [], [], [], DirectedGraph.empty⟩

/-- The optimizer state on `prog5` after the reaching-definitions solver. -/
def o5fix : Optimizer :=
  (calc_reaching_definition 10 o5).getD ⟨[], [], [], [], DirectedGraph.empty⟩

/-- A five-statement program exercising every kind of CFG edge: a conditional
jump with fall-through, an unconditional jump, plain fall-through, and a last
node without successors. -/
def prog6 : List Stmt :=
  [Stmt.JumpIfZero (Expr.Int 0) 5, Stmt.Store 0 (Expr.Int 1), Stmt.Label 5,
   Stmt.Jump 5, Stmt.Store 1 (Expr.Int 2)]

/-- The CFG built from `prog6`. -/
def g6 : DirectedGraph Stmt := (code_to_graph prog6).getD DirectedGraph.empty

/-- A three-statement program whose segmentation produces two blocks; used to
instantiate the amended basic-block claim. -/
def prog10 : List Stmt :=
  [Stmt.Store 0 (Expr.Int 1), Stmt.Jump 9, Stmt.Store 1 (Expr.Int 2)]

/-! ### Arithmetic facts about `wrap64` -/

theorem wrap64_bounds (x : ℤ) : -(2 ^ 63) ≤ wrap64 x ∧ wrap64 x < 2 ^ 63 := by
  have h64 : (2 : ℤ) ^ 64 = 18446744073709551616 := by norm_num
  have h63 : (2 : ℤ) ^ 63 = 9223372036854775808 := by norm_num
  unfold wrap64
  rw [h64, h63]
  omega

theorem wrap64_mod (x : ℤ) : wrap64 x % 2 ^ 64 = x % 2 ^ 64 := by
  have h64 : (2 : ℤ) ^ 64 = 18446744073709551616 := by norm_num
  have h63 : (2 : ℤ) ^ 63 = 9223372036854775808 := by norm_num
  unfold wrap64
  rw [h64, h63]
  omega

/-- On a constant expression whose literals are in `i64` range, `to_value`
succeeds and its result is in `i64` range. -/
theorem to_value_const (e : Expr) (hc : e.is_const = true) (hw : e.wf64 = true) :
    ∃ v, e.to_value = some v ∧ -(2 ^ 63) ≤ v ∧ v < 2 ^ 63 := by
  induction e with
  | Int n =>
    rw [Expr.wf64, Bool.and_eq_true, decide_eq_true_eq, decide_eq_true_eq] at hw
    exact ⟨n, rfl, hw.1, hw.2⟩
  | Add lhs rhs ihl ihr =>
    rw [Expr.is_const, Bool.and_eq_true] at hc
    rw [Expr.wf64, Bool.and_eq_true] at hw
    obtain ⟨va, hva, _, _⟩ := ihl hc.1 hw.1
    obtain ⟨vb, hvb, _, _⟩ := ihr hc.2 hw.2
    exact ⟨wrap64 (va + vb), by rw [Expr.to_value, hva, hvb]; rfl,
      (wrap64_bounds _).1, (wrap64_bounds _).2⟩
  | Mul lhs rhs ihl ihr =>
    rw [Expr.is_const, Bool.and_eq_true] at hc
    rw [Expr.wf64, Bool.and_eq_true] at hw
    obtain ⟨va, hva, _, _⟩ := ihl hc.1 hw.1
    obtain ⟨vb, hvb, _, _⟩ := ihr hc.2 hw.2
    exact ⟨wrap64 (va * vb), by rw [Expr.to_value, hva, hvb]; rfl,
      (wrap64_bounds _).1, (wrap64_bounds _).2⟩
  | LoadCopy loc => simp [Expr.is_const] at hc

/-- A constant expression always has a `to_value`, with no range information. -/
theorem to_value_isSome (e : Expr) (hc : e.is_const = true) :
    ∃ v, e.to_value = some v := by
  induction e with
  | Int n => exact ⟨n, rfl⟩
  | Add lhs rhs ihl ihr =>
    rw [Expr.is_const, Bool.and_eq_true] at hc
    obtain ⟨va, hva⟩ := ihl hc.1
    obtain ⟨vb, hvb⟩ := ihr hc.2
    exact ⟨wrap64 (va + vb), by rw [Expr.to_value, hva, hvb]; rfl⟩
  | Mul lhs rhs ihl ihr =>
    rw [Expr.is_const, Bool.and_eq_true] at hc
    obtain ⟨va, hva⟩ := ihl hc.1
    obtain ⟨vb, hvb⟩ := ihr hc.2
    exact ⟨wrap64 (va * vb), by rw [Expr.to_value, hva, hvb]; rfl⟩
  | LoadCopy loc => simp [Expr.is_const] at hc

/-! ### List access helpers -/

theorem getD_append_single {T : Type} (l : List T) (d : T) (p : ℕ) :
    (l ++ [d]).getD p d = l.getD p d := by
  rw [List.getD_eq_getElem?_getD, List.getD_eq_getElem?_getD, List.getElem?_append]
  rcases Nat.lt_or_ge p l.length with h | h
  · rw [if_pos h]
  · rw [if_neg (Nat.not_lt.mpr h), List.getElem?_eq_none h]
    cases p - l.length with
    | zero => rfl
    | succ k => rfl

theorem getD_set_self {T : Type} (l : List T) (i : ℕ) (a d : T) (h : i < l.length) :
    (l.set i a).getD i d = a := by
  rw [List.getD_eq_getElem?_getD, List.getElem?_set_eq_of_lt a h]
  rfl

theorem getD_set_ne {T : Type} (l : List T) (i j : ℕ) (a d : T) (h : i ≠ j) :
    (l.set i a).getD j d = l.getD j d := by
  rw [List.getD_eq_getElem?_getD, List.getElem?_set_ne h, List.getD_eq_getElem?_getD]

/-! ### Graphs built by `add` and `add_edge` are well formed -/

theorem edges_ok_empty {T : Type} : edges_ok (DirectedGraph.empty : DirectedGraph T) := by
  refine ⟨rfl, rfl, ?_, ?_⟩ <;> intro p q h <;>
    simp [DirectedGraph.empty, List.getD] at h

theorem edges_ok_add {T : Type} (g : DirectedGraph T) (v : T) (h : edges_ok g) :
    edges_ok (g.add v).1 := by
  obtain ⟨h1, h2, h3, h4⟩ := h
  refine ⟨?_, ?_, ?_, ?_⟩
  · simp [DirectedGraph.add, h1]
  · simp [DirectedGraph.add, h2]
  · intro p q hq
    rw [show (g.add v).1.succ = g.succ ++ [∅] from rfl, getD_append_single] at hq
    obtain ⟨hp, hq2, hpred⟩ := h3 p q hq
    rw [show (g.add v).1.pred = g.pred ++ [∅] from rfl, getD_append_single]
    refine ⟨?_, ?_, hpred⟩ <;>
      simp [DirectedGraph.add] <;> omega
  · intro p q hp
    rw [show (g.add v).1.pred = g.pred ++ [∅] from rfl, getD_append_single] at hp
    rw [show (g.add v).1.succ = g.succ ++ [∅] from rfl, getD_append_single]
    exact h4 p q hp

theorem add_edge_some {T : Type} {g g₂ : DirectedGraph T} {fr dst : ℕ}
    (h : g.add_edge fr dst = some g₂) :
    fr < g.nodes.length ∧ dst < g.nodes.length ∧
    g₂ = { g with
      succ := g.succ.set fr (insert dst (g.succ.getD fr ∅))
      pred := g.pred.set dst (insert fr (g.pred.getD dst ∅)) } := by
  rw [DirectedGraph.add_edge] at h
  split at h
  · split at h
    · exact ⟨by assumption, by assumption, (Option.some.inj h).symm⟩
    · exact Option.noConfusion h
  · exact Option.noConfusion h

theorem edges_ok_add_edge {T : Type} {g g₂ : DirectedGraph T} {fr dst : ℕ}
    (h : g.add_edge fr dst = some g₂) (he : edges_ok g) : edges_ok g₂ := by
  obtain ⟨h1, h2, h3, h4⟩ := he
  obtain ⟨hfr, hdst, rfl⟩ := add_edge_some h
  refine ⟨by simp [h1], by simp [h2], ?_, ?_⟩
  · intro p q hq
    simp only at hq ⊢
    by_cases hp : p = fr
    · subst hp
      rw [getD_set_self _ _ _ _ (h1 ▸ hfr)] at hq
      rcases Finset.mem_insert.mp hq with rfl | hq2
      · refine ⟨hfr, hdst, ?_⟩
        rw [getD_set_self _ _ _ _ (h2 ▸ hdst)]
        exact Finset.mem_insert_self _ _
      · obtain ⟨hpl, hql, hpred⟩ := h3 p q hq2
        refine ⟨hpl, hql, ?_⟩
        by_cases hqd : q = dst
        · subst hqd
          rw [getD_set_self _ _ _ _ (h2 ▸ hdst)]
          exact Finset.mem_insert_self _ _
        · rw [getD_set_ne _ _ _ _ _ (fun hx => hqd hx.symm)]
          exact hpred
    · rw [getD_set_ne _ _ _ _ _ (fun hx => hp hx.symm)] at hq
      obtain ⟨hpl, hql, hpred⟩ := h3 p q hq
      refine ⟨hpl, hql, ?_⟩
      by_cases hqd : q = dst
      · subst hqd
        rw [getD_set_self _ _ _ _ (h2 ▸ hdst)]
        exact Finset.mem_insert_of_mem hpred
      · rw [getD_set_ne _ _ _ _ _ (fun hx => hqd hx.symm)]
        exact hpred
  · intro p q hp
    simp only at hp ⊢
    by_cases hqd : q = dst
    · subst hqd
      rw [getD_set_self _ _ _ _ (h2 ▸ hdst)] at hp
      rcases Finset.mem_insert.mp hp with rfl | hp2
      · rw [getD_set_self _ _ _ _ (h1 ▸ hfr)]
        exact Finset.mem_insert_self _ _
      · have hsucc := h4 p q hp2
        by_cases hpf : p = fr
        · subst hpf
          rw [getD_set_self _ _ _ _ (h1 ▸ hfr)]
          exact Finset.mem_insert_of_mem hsucc
        · rw [getD_set_ne _ _ _ _ _ (fun hx => hpf hx.symm)]
          exact hsucc
    · rw [getD_set_ne _ _ _ _ _ (fun hx => hqd hx.symm)] at hp
      have hsucc := h4 p q hp
      by_cases hpf : p = fr
      · subst hpf
        rw [getD_set_self _ _ _ _ (h1 ▸ hfr)]
        exact Finset.mem_insert_of_mem hsucc
      · rw [getD_set_ne _ _ _ _ _ (fun hx => hpf hx.symm)]
        exact hsucc

theorem add_edge_nodes {T : Type} {g g₂ : DirectedGraph T} {fr dst : ℕ}
    (h : g.add_edge fr dst = some g₂) : g₂.nodes = g.nodes := by
  obtain ⟨-, -, rfl⟩ := add_edge_some h
  rfl

/-! ### The CFG builder produces a well-formed graph over the statement list -/

theorem ctg_step_graph (acc : DirectedGraph Stmt × List (Label × ℕ)) (stmt : Stmt) :
    (ctg_step acc stmt).1 = (acc.1.add stmt).1 := by
  cases stmt <;> rfl

theorem code_to_graph_nodes_fold (code : List Stmt) (g : DirectedGraph Stmt)
    (labels : List (Label × ℕ)) (h : edges_ok g) :
    edges_ok (code.foldl ctg_step (g, labels)).1 ∧
    (code.foldl ctg_step (g, labels)).1.nodes = g.nodes ++ code := by
  induction code generalizing g labels with
  | nil => exact ⟨h, by simp⟩
  | cons stmt rest ih =>
    rw [List.foldl_cons]
    have hstep : ctg_step (g, labels) stmt = ((g.add stmt).1, (ctg_step (g, labels) stmt).2) := by
      rw [← ctg_step_graph (g, labels) stmt]
    rw [hstep]
    obtain ⟨ho, hn⟩ := ih (g.add stmt).1 (ctg_step (g, labels) stmt).2 (edges_ok_add g stmt h)
    refine ⟨ho, ?_⟩
    rw [hn]
    simp [DirectedGraph.add]

theorem code_to_graph_nodes_ok (code : List Stmt) :
    edges_ok (code_to_graph_nodes code).1 ∧ (code_to_graph_nodes code).1.nodes = code := by
  have := code_to_graph_nodes_fold code DirectedGraph.empty [] edges_ok_empty
  rw [code_to_graph_nodes]
  simpa [DirectedGraph.empty] using this

theorem add_jump_edge_ok {labels : List (Label × ℕ)} {g g₂ : DirectedGraph Stmt}
    {index : ℕ} (h : add_jump_edge labels g index = some g₂) (he : edges_ok g) :
    edges_ok g₂ ∧ g₂.nodes = g.nodes := by
  rw [add_jump_edge] at h
  split at h
  all_goals first
    | exact Option.noConfusion h
    | (cases h; exact ⟨he, rfl⟩)
    | (rename_i name heq
       cases hl : assocGet labels name with
       | some dest => rw [hl] at h; exact ⟨edges_ok_add_edge h he, add_edge_nodes h⟩
       | none => rw [hl] at h; exact Option.noConfusion h)

theorem add_fallthrough_edge_ok {g g₂ : DirectedGraph Stmt} {index : ℕ}
    (h : add_fallthrough_edge g index = some g₂) (he : edges_ok g) :
    edges_ok g₂ ∧ g₂.nodes = g.nodes := by
  cases index with
  | zero => cases h; exact ⟨he, rfl⟩
  | succ prev =>
    rw [add_fallthrough_edge] at h
    split at h
    · cases h; exact ⟨he, rfl⟩
    · exact ⟨edges_ok_add_edge h he, add_edge_nodes h⟩
    · exact Option.noConfusion h

theorem add_edges_at_ok {labels : List (Label × ℕ)} {g g₂ : DirectedGraph Stmt}
    {index : ℕ} (h : add_edges_at labels g index = some g₂) (he : edges_ok g) :
    edges_ok g₂ ∧ g₂.nodes = g.nodes := by
  rw [add_edges_at] at h
  cases hj : add_jump_edge labels g index with
  | none => rw [hj] at h; exact Option.noConfusion h
  | some g₁ =>
    rw [hj] at h
    obtain ⟨ho1, hn1⟩ := add_jump_edge_ok hj he
    obtain ⟨ho2, hn2⟩ := add_fallthrough_edge_ok h ho1
    exact ⟨ho2, hn2.trans hn1⟩

theorem add_edges_loop_ok {labels : List (Label × ℕ)} {g g₂ : DirectedGraph Stmt}
    {l : List ℕ} (h : add_edges_loop labels g l = some g₂) (he : edges_ok g) :
    edges_ok g₂ ∧ g₂.nodes = g.nodes := by
  induction l generalizing g with
  | nil => cases h; exact ⟨he, rfl⟩
  | cons i rest ih =>
    rw [add_edges_loop] at h
    cases ha : add_edges_at labels g i with
    | none => rw [ha] at h; exact Option.noConfusion h
    | some g₁ =>
      rw [ha] at h
      obtain ⟨ho1, hn1⟩ := add_edges_at_ok ha he
      obtain ⟨ho2, hn2⟩ := ih h ho1
      exact ⟨ho2, hn2.trans hn1⟩

theorem code_to_graph_ok {code : List Stmt} {g : DirectedGraph Stmt}
    (h : code_to_graph code = some g) : edges_ok g ∧ g.nodes = code := by
  rw [code_to_graph] at h
  obtain ⟨ho, hn⟩ := code_to_graph_nodes_ok code
  obtain ⟨ho2, hn2⟩ := add_edges_loop_ok h ho
  exact ⟨ho2, hn2.trans hn⟩

/-! ### The reaching-definitions sweep at a fixed point -/

theorem rd_step_fields {o o₂ : Optimizer} {i : ℕ} (h : rd_step o i = some o₂) :
    o₂.code = o.code ∧ o₂.defs = o.defs ∧ o₂.def_exprs = o.def_exprs ∧
    o₂.in_defs.length = o.in_defs.length ∧
    o₂.out_defs.length = o.out_defs.length := by
  rw [rd_step] at h
  cases hgk : rd_gen_kill o i with
  | none => rw [hgk] at h; exact Option.noConfusion h
  | some gk =>
    rw [hgk] at h
    cases Option.some.inj h
    exact ⟨rfl, rfl, rfl, by simp, by simp⟩

theorem rd_step_frame {o o₂ : Optimizer} {i j : ℕ} (h : rd_step o i = some o₂)
    (hij : j ≠ i) :
    o₂.in_defs[j]? = o.in_defs[j]? ∧ o₂.out_defs[j]? = o.out_defs[j]? := by
  rw [rd_step] at h
  cases hgk : rd_gen_kill o i with
  | none => rw [hgk] at h; exact Option.noConfusion h
  | some gk =>
    rw [hgk] at h
    cases Option.some.inj h
    exact ⟨List.getElem?_set_ne (Ne.symm hij), List.getElem?_set_ne (Ne.symm hij)⟩

theorem rd_step_post {o o₂ : Optimizer} {i : ℕ} (h : rd_step o i = some o₂)
    (h1 : i < o.in_defs.length) (h2 : i < o.out_defs.length) :
    ∃ gk, rd_gen_kill o i = some gk ∧
      o₂.in_defs[i]? = some (rd_new_in o i) ∧
      o₂.out_defs[i]? = some (gk.1 ∪ (rd_new_in o i \ gk.2)) := by
  rw [rd_step] at h
  cases hgk : rd_gen_kill o i with
  | none => rw [hgk] at h; exact Option.noConfusion h
  | some gk =>
    rw [hgk] at h
    cases Option.some.inj h
    exact ⟨gk, rfl, List.getElem?_set_eq_of_lt _ h1, List.getElem?_set_eq_of_lt _ h2⟩

theorem rd_pass_aux_fields {o o₂ : Optimizer} {l : List ℕ}
    (h : rd_pass_aux o l = some o₂) :
    o₂.code = o.code ∧ o₂.defs = o.defs ∧ o₂.def_exprs = o.def_exprs ∧
    o₂.in_defs.length = o.in_defs.length ∧
    o₂.out_defs.length = o.out_defs.length := by
  induction l generalizing o with
  | nil => cases h; exact ⟨rfl, rfl, rfl, rfl, rfl⟩
  | cons i rest ih =>
    rw [rd_pass_aux] at h
    cases hs : rd_step o i with
    | none => rw [hs] at h; exact Option.noConfusion h
    | some o₁ =>
      rw [hs] at h
      obtain ⟨a1, a2, a3, a4, a5⟩ := rd_step_fields hs
      obtain ⟨b1, b2, b3, b4, b5⟩ := ih h
      exact ⟨b1.trans a1, b2.trans a2, b3.trans a3, b4.trans a4, b5.trans a5⟩

theorem rd_pass_aux_frame {o o₂ : Optimizer} {l : List ℕ} {j : ℕ}
    (h : rd_pass_aux o l = some o₂) (hj : j ∉ l) :
    o₂.in_defs[j]? = o.in_defs[j]? ∧ o₂.out_defs[j]? = o.out_defs[j]? := by
  induction l generalizing o with
  | nil => cases h; exact ⟨rfl, rfl⟩
  | cons i rest ih =>
    rw [rd_pass_aux] at h
    cases hs : rd_step o i with
    | none => rw [hs] at h; exact Option.noConfusion h
    | some o₁ =>
      rw [hs] at h
      have hji : j ≠ i := fun hx => hj (hx ▸ List.mem_cons_self i rest)
      obtain ⟨f1, f2⟩ := rd_step_frame hs hji
      obtain ⟨g1, g2⟩ := ih h (fun hx => hj (List.mem_cons_of_mem i hx))
      exact ⟨g1.trans f1, g2.trans f2⟩

theorem rd_pass_aux_append {o o₂ : Optimizer} {l₁ l₂ : List ℕ}
    (h : rd_pass_aux o (l₁ ++ l₂) = some o₂) :
    ∃ o₁, rd_pass_aux o l₁ = some o₁ ∧ rd_pass_aux o₁ l₂ = some o₂ := by
  induction l₁ generalizing o with
  | nil => exact ⟨o, rfl, h⟩
  | cons i rest ih =>
    rw [List.cons_append, rd_pass_aux] at h
    cases hs : rd_step o i with
    | none => rw [hs] at h; exact Option.noConfusion h
    | some o₁ =>
      rw [hs] at h
      obtain ⟨om, hm1, hm2⟩ := ih h
      refine ⟨om, ?_, hm2⟩
      rw [rd_pass_aux, hs]
      exact hm1

theorem optimizer_eq {o o₂ : Optimizer} (h1 : o.in_defs = o₂.in_defs)
    (h2 : o.out_defs = o₂.out_defs) (h3 : o.defs = o₂.defs)
    (h4 : o.def_exprs = o₂.def_exprs) (h5 : o.code = o₂.code) : o = o₂ := by
  cases o
  cases o₂
  congr 1

/-- The heart of claim C5: a state that a full in-order in-place sweep maps to
itself satisfies the dataflow equations at every index of the sweep.  Each
sweep step touches only position `i` of `in` and `out`, and the positions are
pairwise distinct, so if the sweep as a whole changes nothing, the state seen
by each step is the final state itself. -/
theorem rd_pass_aux_fix {o : Optimizer} {l : List ℕ} (hnd : l.Nodup)
    (h : rd_pass_aux o l = some o) {i : ℕ} (hi : i ∈ l)
    (h1 : i < o.in_defs.length) (h2 : i < o.out_defs.length) :
    ∃ gk, rd_gen_kill o i = some gk ∧
      o.in_defs[i]? = some (rd_new_in o i) ∧
      o.out_defs[i]? = some (gk.1 ∪ (rd_new_in o i \ gk.2)) := by
  obtain ⟨l₁, l₂, rfl⟩ := List.append_of_mem hi
  obtain ⟨o₁, hfold1, hfold2⟩ := rd_pass_aux_append h
  rw [rd_pass_aux] at hfold2
  cases hs : rd_step o₁ i with
  | none => rw [hs] at hfold2; exact Option.noConfusion hfold2
  | some o₂ =>
    rw [hs] at hfold2
    rw [List.nodup_append] at hnd
    obtain ⟨hnd1, hnd2, hdisj⟩ := hnd
    have hil2 : i ∉ l₂ := (List.nodup_cons.mp hnd2).1
    have hpoint : ∀ j : ℕ,
        o₁.in_defs[j]? = o.in_defs[j]? ∧ o₁.out_defs[j]? = o.out_defs[j]? := by
      intro j
      by_cases hj : j ∈ l₁
      · have hji : j ≠ i := fun hx => hdisj hj (hx ▸ List.mem_cons_self i l₂)
        have hjl2 : j ∉ l₂ := fun hx => hdisj hj (List.mem_cons_of_mem i hx)
        obtain ⟨f1, f2⟩ := rd_step_frame hs hji
        obtain ⟨g1, g2⟩ := rd_pass_aux_frame hfold2 hjl2
        exact ⟨(g1.trans f1).symm, (g2.trans f2).symm⟩
      · exact rd_pass_aux_frame hfold1 hj
    obtain ⟨c1, c2, c3, c4, c5⟩ := rd_pass_aux_fields hfold1
    have hin : o₁.in_defs = o.in_defs := List.ext_getElem? fun j => (hpoint j).1
    have hout : o₁.out_defs = o.out_defs := List.ext_getElem? fun j => (hpoint j).2
    have heq : o₁ = o := optimizer_eq hin hout c2 c3 c1
    subst heq
    obtain ⟨gk, hgk, hpin, hpout⟩ := rd_step_post hs h1 h2
    obtain ⟨q1, q2⟩ := rd_pass_aux_frame hfold2 hil2
    exact ⟨gk, hgk, q1.trans hpin, q2.trans hpout⟩

theorem rd_pass_fix {o : Optimizer} (h : rd_pass o = some o) {i : ℕ}
    (hi : i < o.code.len) (h1 : i < o.in_defs.length) (h2 : i < o.out_defs.length) :
    ∃ gk, rd_gen_kill o i = some gk ∧
      o.in_defs[i]? = some (rd_new_in o i) ∧
      o.out_defs[i]? = some (gk.1 ∪ (rd_new_in o i \ gk.2)) := by
  rw [rd_pass] at h
  exact rd_pass_aux_fix (List.nodup_range _) h (List.mem_range.mpr hi) h1 h2

theorem rd_loop_fields {fuel : ℕ} {o o₂ : Optimizer} (h : rd_loop fuel o = some o₂) :
    o₂.code = o.code ∧ o₂.defs = o.defs ∧ o₂.def_exprs = o.def_exprs ∧
    o₂.in_defs.length = o.in_defs.length ∧
    o₂.out_defs.length = o.out_defs.length := by
  induction fuel generalizing o with
  | zero => exact Option.noConfusion h
  | succ fuel ih =>
    rw [rd_loop] at h
    cases hp : rd_pass o with
    | none => rw [hp] at h; exact Option.noConfusion h
    | some o₃ =>
      rw [hp] at h
      replace h : (if o₃.in_defs = o.in_defs ∧ o₃.out_defs = o.out_defs then some o₃
          else rd_loop fuel o₃) = some o₂ := h
      rw [rd_pass] at hp
      by_cases hc : o₃.in_defs = o.in_defs ∧ o₃.out_defs = o.out_defs
      · rw [if_pos hc] at h
        cases Option.some.inj h
        exact rd_pass_aux_fields hp
      · rw [if_neg hc] at h
        obtain ⟨a1, a2, a3, a4, a5⟩ := rd_pass_aux_fields hp
        obtain ⟨b1, b2, b3, b4, b5⟩ := ih h
        exact ⟨b1.trans a1, b2.trans a2, b3.trans a3, b4.trans a4, b5.trans a5⟩

theorem rd_loop_fix {fuel : ℕ} {o o₂ : Optimizer} (h : rd_loop fuel o = some o₂) :
    rd_pass o₂ = some o₂ := by
  induction fuel generalizing o with
  | zero => exact Option.noConfusion h
  | succ fuel ih =>
    rw [rd_loop] at h
    cases hp : rd_pass o with
    | none => rw [hp] at h; exact Option.noConfusion h
    | some o₃ =>
      rw [hp] at h
      replace h : (if o₃.in_defs = o.in_defs ∧ o₃.out_defs = o.out_defs then some o₃
          else rd_loop fuel o₃) = some o₂ := h
      by_cases hc : o₃.in_defs = o.in_defs ∧ o₃.out_defs = o.out_defs
      · rw [if_pos hc] at h
        cases Option.some.inj h
        obtain ⟨c1, c2, c3, c4, c5⟩ := rd_pass_aux_fields (by rw [rd_pass] at hp; exact hp)
        have ho : o = o₂ := optimizer_eq hc.1.symm hc.2.symm c2.symm c3.symm c1.symm
        rw [← ho] at hp ⊢
        exact hp
      · rw [if_neg hc] at h
        exact ih h

/-! ### The label map built by the first loop of the CFG builder -/

theorem assocGet_assocPut {α β : Type} [DecidableEq α] (m : List (α × β))
    (k k₂ : α) (v : β) :
    assocGet (assocPut m k v) k₂ = if k₂ = k then some v else assocGet m k₂ := by
  induction m with
  | nil => rfl
  | cons p rest ih =>
    obtain ⟨k₃, v₃⟩ := p
    by_cases h3 : k = k₃
    · subst h3
      rw [assocPut, if_pos rfl]
      simp only [assocGet]
      split_ifs <;> rfl
    · rw [assocPut, if_neg h3]
      simp only [assocGet]
      rw [ih]
      by_cases h23 : k₂ = k₃
      · subst h23
        rw [if_pos rfl, if_neg (fun hx => h3 hx.symm), if_pos rfl]
      · rw [if_neg h23, if_neg h23]

theorem getElem?_some_lt {α : Type} {l : List α} {n : ℕ} {a : α}
    (h : l[n]? = some a) : n < l.length := by
  by_contra hc
  rw [List.getElem?_eq_none (Nat.le_of_not_lt hc)] at h
  exact Option.noConfusion h

theorem getElem?_append_lt {α : Type} (pre post : List α) (j : ℕ)
    (h : j < pre.length) : (pre ++ post)[j]? = pre[j]? := by
  rw [List.getElem?_append, if_pos h]

theorem getElem?_append_end {α : Type} (pre : List α) (s : α) :
    (pre ++ [s])[pre.length]? = some s := by
  rw [List.getElem?_append, if_neg (lt_irrefl _), Nat.sub_self]
  rfl

theorem label_names_append (a b : List Stmt) :
    label_names (a ++ b) = label_names a ++ label_names b :=
  List.filterMap_append a b _

theorem ctg_step_nonlabel (acc : DirectedGraph Stmt × List (Label × ℕ)) (s : Stmt)
    (h : s.is_label = false) : ctg_step acc s = ((acc.1.add s).1, acc.2) := by
  cases s <;> first | rfl | simp [Stmt.is_label] at h

theorem label_inv_extend_nonlabel {pre : List Stmt} {labels : List (Label × ℕ)}
    (s : Stmt) (hs : s.is_label = false)
    (hinv : ∀ name j, assocGet labels name = some j ↔ pre[j]? = some (Stmt.Label name)) :
    ∀ name j, assocGet labels name = some j ↔
      (pre ++ [s])[j]? = some (Stmt.Label name) := by
  intro name j
  rw [hinv name j]
  rcases Nat.lt_trichotomy j pre.length with hlt | heq | hgt
  · rw [getElem?_append_lt pre _ j hlt]
  · subst heq
    rw [getElem?_append_end]
    constructor
    · intro hj
      exact absurd (getElem?_some_lt hj) (lt_irrefl _)
    · intro hj
      obtain rfl := Option.some.inj hj
      simp [Stmt.is_label] at hs
  · have h1 : pre[j]? = none := List.getElem?_eq_none (by omega)
    have h2 : (pre ++ [s])[j]? = none := by
      refine List.getElem?_eq_none ?_
      rw [List.length_append, List.length_singleton]
      omega
    rw [h1, h2]

theorem ctg_labels_fold (code : List Stmt) :
    ∀ (pre : List Stmt) (g : DirectedGraph Stmt) (labels : List (Label × ℕ)),
    g.nodes = pre →
    (label_names (pre ++ code)).Nodup →
    (∀ name j, assocGet labels name = some j ↔ pre[j]? = some (Stmt.Label name)) →
    ∀ name j, assocGet (code.foldl ctg_step (g, labels)).2 name = some j ↔
      (pre ++ code)[j]? = some (Stmt.Label name) := by
  induction code with
  | nil =>
    intro pre g labels hn hnd hinv name j
    rw [List.append_nil]
    exact hinv name j
  | cons stmt rest ih =>
    intro pre g labels hn hnd hinv name j
    rw [List.foldl_cons]
    have happ : pre ++ stmt :: rest = (pre ++ [stmt]) ++ rest := by simp
    rw [happ]
    rw [happ] at hnd
    by_cases hl : stmt.is_label = true
    · obtain ⟨name₂, rfl⟩ : ∃ n₂, stmt = Stmt.Label n₂ := by
        cases stmt <;> simp [Stmt.is_label] at hl ⊢
      have hstep : ctg_step (g, labels) (Stmt.Label name₂) =
          ((g.add (Stmt.Label name₂)).1, assocPut labels name₂ pre.length) := by
        rw [← hn]
        rfl
      rw [hstep]
      have hnotin : name₂ ∉ label_names pre := by
        intro hmem
        rw [label_names_append, label_names_append] at hnd
        have hone : label_names [Stmt.Label name₂] = [name₂] := rfl
        rw [hone] at hnd
        have hdisj := (List.nodup_append.mp (List.nodup_append.mp hnd).1).2.2
        exact hdisj hmem (List.mem_singleton.mpr rfl)
      have hinv₂ : ∀ name j,
          assocGet (assocPut labels name₂ pre.length) name = some j ↔
          (pre ++ [Stmt.Label name₂])[j]? = some (Stmt.Label name) := by
        intro name j
        rw [assocGet_assocPut]
        by_cases hne : name = name₂
        · subst hne
          rw [if_pos rfl]
          constructor
          · intro hj
            obtain rfl := Option.some.inj hj
            exact getElem?_append_end pre _
          · intro hj
            rcases Nat.lt_trichotomy j pre.length with hlt | heq | hgt
            · exfalso
              rw [getElem?_append_lt pre _ j hlt] at hj
              exact hnotin (List.mem_filterMap.mpr ⟨_, List.getElem?_mem hj, rfl⟩)
            · rw [heq]
            · exfalso
              have hlen := getElem?_some_lt hj
              rw [List.length_append, List.length_singleton] at hlen
              omega
        · rw [if_neg hne, hinv name j]
          rcases Nat.lt_trichotomy j pre.length with hlt | heq | hgt
          · rw [getElem?_append_lt pre _ j hlt]
          · subst heq
            rw [getElem?_append_end]
            constructor
            · intro hj
              exact absurd (getElem?_some_lt hj) (lt_irrefl _)
            · intro hj
              exact absurd (Stmt.Label.inj (Option.some.inj hj))
                (fun hx => hne hx.symm)
          · have h1 : pre[j]? = none := List.getElem?_eq_none (by omega)
            have h2 : (pre ++ [Stmt.Label name₂])[j]? = none := by
              refine List.getElem?_eq_none ?_
              rw [List.length_append, List.length_singleton]
              omega
            rw [h1, h2]
      have hnodes₂ : (g.add (Stmt.Label name₂)).1.nodes = pre ++ [Stmt.Label name₂] := by
        simp [DirectedGraph.add, hn]
      exact ih (pre ++ [Stmt.Label name₂]) _ _ hnodes₂ hnd hinv₂ name j
    · have hl2 : stmt.is_label = false := by
        cases hbb : stmt.is_label
        · rfl
        · exact absurd hbb hl
      rw [ctg_step_nonlabel _ _ hl2]
      have hnodes₂ : (g.add stmt).1.nodes = pre ++ [stmt] := by
        simp [DirectedGraph.add, hn]
      exact ih (pre ++ [stmt]) _ _ hnodes₂ hnd
        (label_inv_extend_nonlabel stmt hl2 hinv) name j

theorem ctg_labels_char {code : List Stmt} (hnd : (label_names code).Nodup) :
    ∀ name j, assocGet (code_to_graph_nodes code).2 name = some j ↔
      code[j]? = some (Stmt.Label name) := by
  have hbase : ∀ name j, assocGet ([] : List (Label × ℕ)) name = some j ↔
      ([] : List Stmt)[j]? = some (Stmt.Label name) := by
    intro name j
    constructor
    · intro h
      exact Option.noConfusion h
    · intro h
      exact Option.noConfusion h
  have := ctg_labels_fold code [] DirectedGraph.empty [] rfl (by simpa using hnd) hbase
  intro name j
  have h2 := this name j
  rw [List.nil_append] at h2
  exact h2

/-! ### The successor sets produced by the edge loop -/

theorem ctg_succ_fold (code : List Stmt) :
    ∀ (g : DirectedGraph Stmt) (labels : List (Label × ℕ)),
    (code.foldl ctg_step (g, labels)).1.succ = g.succ ++ List.replicate code.length ∅ := by
  induction code with
  | nil =>
    intro g labels
    simp
  | cons stmt rest ih =>
    intro g labels
    rw [List.foldl_cons]
    rw [show rest.foldl ctg_step (ctg_step (g, labels) stmt) =
      rest.foldl ctg_step ((ctg_step (g, labels) stmt).1, (ctg_step (g, labels) stmt).2)
      from rfl]
    rw [ih, ctg_step_graph]
    simp [DirectedGraph.add, List.replicate_succ]

theorem getD_replicate_empty (n i : ℕ) :
    (List.replicate n (∅ : Finset ℕ)).getD i ∅ = ∅ := by
  rw [List.getD_eq_getElem?_getD]
  rcases Nat.lt_or_ge i n with h | h
  · rw [List.getElem?_replicate_of_lt h]
    rfl
  · rw [List.getElem?_eq_none (by simpa using h)]
    rfl

/-- One pass of the edge loop body, jump-edge half: the successor sets after
`add_jump_edge` at index `k` have the jump part of `k` switched on. -/
theorem add_jump_edge_char {labels : List (Label × ℕ)} {code : List Stmt}
    {g gj : DirectedGraph Stmt} {k : ℕ} (hk : k < code.length)
    (hnodes : g.nodes = code) (hlen : g.succ.length = code.length)
    (hinv : ∀ i, g.succ.getD i ∅ = partial_succ labels code k i)
    (hj : add_jump_edge labels g k = some gj) :
    gj.nodes = code ∧ gj.succ.length = code.length ∧
    ∀ i, gj.succ.getD i ∅ =
      (if i < k + 1 then jump_part labels code i else ∅) ∪
      (if i + 1 < k ∧ is_jump_uncond code[i]? = false then {i + 1} else ∅) := by
  have hck : code[k]? = some code[k] := List.getElem?_eq_getElem hk
  have hgk : g.nodes[k]? = some code[k] := by rw [hnodes]; exact hck
  have hps_k : partial_succ labels code k k = ∅ ∪ ∅ := by
    rw [partial_succ, if_neg (lt_irrefl k), if_neg (by omega)]
  have hmain : ∀ s, code[k]? = some s →
      (∀ i, gj.succ.getD i ∅ =
        (if i < k + 1 then jump_part labels code i else ∅) ∪
        (if i + 1 < k ∧ is_jump_uncond code[i]? = false then {i + 1} else ∅)) ∧
      gj.nodes = code ∧ gj.succ.length = code.length := by
    intro s hs
    have hjp : ∀ i, i ≠ k →
        ((if i < k + 1 then jump_part labels code i else ∅) ∪
          (if i + 1 < k ∧ is_jump_uncond code[i]? = false then {i + 1} else ∅))
        = partial_succ labels code k i := by
      intro i hik
      rw [partial_succ]
      congr 1
      by_cases hi : i < k
      · rw [if_pos hi, if_pos (by omega)]
      · rw [if_neg hi, if_neg (by omega)]
    rw [add_jump_edge, hnodes, hs] at hj
    cases s with
    | Jump name =>
      replace hj : (match assocGet labels name with
        | some dest => g.add_edge k dest
        | none => none) = some gj := hj
      cases hla : assocGet labels name with
      | none => rw [hla] at hj; exact Option.noConfusion hj
      | some dest =>
        rw [hla] at hj
        obtain ⟨hkl, hdl, rfl⟩ := add_edge_some hj
        have hjpk : jump_part labels code k = {dest} := by
          have h1 : jump_part labels code k =
              (match assocGet labels name with
                | some dest => ({dest} : Finset ℕ)
                | none => ∅) := by
            rw [jump_part, hs]
          rw [h1, hla]
        refine ⟨?_, hnodes, by simp [hlen]⟩
        intro i
        by_cases hik : i = k
        · subst hik
          rw [show ({ g with
              succ := g.succ.set i (insert dest (g.succ.getD i ∅)),
              pred := g.pred.set dest (insert i (g.pred.getD dest ∅)) } :
              DirectedGraph Stmt).succ = g.succ.set i (insert dest (g.succ.getD i ∅))
            from rfl]
          rw [getD_set_self _ _ _ _ (by omega), hinv i, hps_k]
          rw [if_pos (by omega), hjpk,
            if_neg (by intro hx; omega)]
          simp
        · rw [show ({ g with
              succ := g.succ.set k (insert dest (g.succ.getD k ∅)),
              pred := g.pred.set dest (insert k (g.pred.getD dest ∅)) } :
              DirectedGraph Stmt).succ = g.succ.set k (insert dest (g.succ.getD k ∅))
            from rfl]
          rw [getD_set_ne _ _ _ _ _ (fun hx => hik hx.symm), hinv i, hjp i hik]
    | JumpIfZero e name =>
      replace hj : (match assocGet labels name with
        | some dest => g.add_edge k dest
        | none => none) = some gj := hj
      cases hla : assocGet labels name with
      | none => rw [hla] at hj; exact Option.noConfusion hj
      | some dest =>
        rw [hla] at hj
        obtain ⟨hkl, hdl, rfl⟩ := add_edge_some hj
        have hjpk : jump_part labels code k = {dest} := by
          have h1 : jump_part labels code k =
              (match assocGet labels name with
                | some dest => ({dest} : Finset ℕ)
                | none => ∅) := by
            rw [jump_part, hs]
          rw [h1, hla]
        refine ⟨?_, hnodes, by simp [hlen]⟩
        intro i
        by_cases hik : i = k
        · subst hik
          rw [show ({ g with
              succ := g.succ.set i (insert dest (g.succ.getD i ∅)),
              pred := g.pred.set dest (insert i (g.pred.getD dest ∅)) } :
              DirectedGraph Stmt).succ = g.succ.set i (insert dest (g.succ.getD i ∅))
            from rfl]
          rw [getD_set_self _ _ _ _ (by omega), hinv i, hps_k]
          rw [if_pos (by omega), hjpk,
            if_neg (by intro hx; omega)]
          simp
        · rw [show ({ g with
              succ := g.succ.set k (insert dest (g.succ.getD k ∅)),
              pred := g.pred.set dest (insert k (g.pred.getD dest ∅)) } :
              DirectedGraph Stmt).succ = g.succ.set k (insert dest (g.succ.getD k ∅))
            from rfl]
          rw [getD_set_ne _ _ _ _ _ (fun hx => hik hx.symm), hinv i, hjp i hik]
    | Store loc e =>
      cases Option.some.inj hj
      refine ⟨?_, hnodes, hlen⟩
      intro i
      by_cases hik : i = k
      · subst hik
        rw [hinv i, hps_k, if_pos (by omega), if_neg (by intro hx; omega)]
        rw [show jump_part labels code i = ∅ from by rw [jump_part, hs]]
      · rw [hinv i, hjp i hik]
    | Expr e =>
      cases Option.some.inj hj
      refine ⟨?_, hnodes, hlen⟩
      intro i
      by_cases hik : i = k
      · subst hik
        rw [hinv i, hps_k, if_pos (by omega), if_neg (by intro hx; omega)]
        rw [show jump_part labels code i = ∅ from by rw [jump_part, hs]]
      · rw [hinv i, hjp i hik]
    | Label name =>
      cases Option.some.inj hj
      refine ⟨?_, hnodes, hlen⟩
      intro i
      by_cases hik : i = k
      · subst hik
        rw [hinv i, hps_k, if_pos (by omega), if_neg (by intro hx; omega)]
        rw [show jump_part labels code i = ∅ from by rw [jump_part, hs]]
      · rw [hinv i, hjp i hik]
    | Print e =>
      cases Option.some.inj hj
      refine ⟨?_, hnodes, hlen⟩
      intro i
      by_cases hik : i = k
      · subst hik
        rw [hinv i, hps_k, if_pos (by omega), if_neg (by intro hx; omega)]
        rw [show jump_part labels code i = ∅ from by rw [jump_part, hs]]
      · rw [hinv i, hjp i hik]
  obtain ⟨ha, hb, hc⟩ := hmain code[k] hck
  exact ⟨hb, hc, ha⟩

/-- One pass of the edge loop body, fall-through half. -/
theorem add_fallthrough_edge_char {labels : List (Label × ℕ)} {code : List Stmt}
    {gj g₁ : DirectedGraph Stmt} {k : ℕ} (hk : k < code.length)
    (hnodes : gj.nodes = code) (hlen : gj.succ.length = code.length)
    (hinv : ∀ i, gj.succ.getD i ∅ =
      (if i < k + 1 then jump_part labels code i else ∅) ∪
      (if i + 1 < k ∧ is_jump_uncond code[i]? = false then {i + 1} else ∅))
    (hf : add_fallthrough_edge gj k = some g₁) :
    g₁.nodes = code ∧ g₁.succ.length = code.length ∧
    ∀ i, g₁.succ.getD i ∅ = partial_succ labels code (k + 1) i := by
  cases k with
  | zero =>
    cases hf
    refine ⟨hnodes, hlen, ?_⟩
    intro i
    rw [hinv i, partial_succ,
      if_neg (show ¬(i + 1 < 0 ∧ is_jump_uncond code[i]? = false) from
        fun hx => by have := hx.1; omega),
      if_neg (show ¬(i + 1 < 0 + 1 ∧ is_jump_uncond code[i]? = false) from
        fun hx => by have := hx.1; omega)]
  | succ prev =>
    have hprev : prev < code.length := by omega
    have hcp : code[prev]? = some code[prev] := List.getElem?_eq_getElem hprev
    rw [add_fallthrough_edge, hnodes, hcp] at hf
    have hgen : is_jump_uncond code[prev]? = false →
        gj.add_edge prev (prev + 1) = some g₁ →
        g₁.nodes = code ∧ g₁.succ.length = code.length ∧
        ∀ i, g₁.succ.getD i ∅ = partial_succ labels code (prev + 1 + 1) i := by
      intro hjmp hadd
      obtain ⟨hp1, hp2, rfl⟩ := add_edge_some hadd
      refine ⟨hnodes, by simp [hlen], ?_⟩
      intro i
      rw [show ({ gj with
          succ := gj.succ.set prev (insert (prev + 1) (gj.succ.getD prev ∅)),
          pred := gj.pred.set (prev + 1) (insert prev (gj.pred.getD (prev + 1) ∅)) } :
          DirectedGraph Stmt).succ =
        gj.succ.set prev (insert (prev + 1) (gj.succ.getD prev ∅)) from rfl]
      by_cases hip : i = prev
      · subst hip
        rw [getD_set_self _ _ _ _ (by omega), hinv i, partial_succ]
        rw [if_pos (show i < i + 1 + 1 by omega),
          if_neg (fun hx => by have := hx.1; omega),
          if_pos (show i + 1 < i + 1 + 1 ∧ is_jump_uncond code[i]? = false
            from ⟨by omega, hjmp⟩)]
        rw [Finset.union_empty, Finset.insert_eq, Finset.union_comm]
      · rw [getD_set_ne _ _ _ _ _ (fun hx => hip hx.symm), hinv i, partial_succ]
        congr 1
        by_cases hcond : i + 1 < prev + 1 ∧ is_jump_uncond code[i]? = false
        · rw [if_pos hcond, if_pos ⟨by omega, hcond.2⟩]
        · rw [if_neg hcond,
            if_neg (fun hx => hcond ⟨by have := hx.1; omega, hx.2⟩)]
    cases hcs : code[prev] with
    | Jump name =>
      rw [hcs] at hf
      cases Option.some.inj hf
      refine ⟨hnodes, hlen, ?_⟩
      intro i
      rw [hinv i, partial_succ]
      congr 1
      by_cases hip : i = prev
      · subst hip
        have hcnd : is_jump_uncond code[i]? = true := by rw [hcp, hcs]; rfl
        rw [if_neg (fun hx => by have := hx.1; omega),
          if_neg (fun hx => by
            have h2 := hx.2
            rw [hcnd] at h2
            exact Bool.noConfusion h2)]
      · by_cases hcond : i + 1 < prev + 1 ∧ is_jump_uncond code[i]? = false
        · rw [if_pos hcond, if_pos ⟨by omega, hcond.2⟩]
        · rw [if_neg hcond,
            if_neg (fun hx => hcond ⟨by have := hx.1; omega, hx.2⟩)]
    | Store loc e =>
      rw [hcs] at hf
      exact hgen (by rw [hcp, hcs]; rfl) hf
    | Expr e =>
      rw [hcs] at hf
      exact hgen (by rw [hcp, hcs]; rfl) hf
    | Label name =>
      rw [hcs] at hf
      exact hgen (by rw [hcp, hcs]; rfl) hf
    | JumpIfZero e name =>
      rw [hcs] at hf
      exact hgen (by rw [hcp, hcs]; rfl) hf
    | Print e =>
      rw [hcs] at hf
      exact hgen (by rw [hcp, hcs]; rfl) hf

theorem add_edges_loop_char (labels : List (Label × ℕ)) (code : List Stmt) :
    ∀ (m k : ℕ) (g g₂ : DirectedGraph Stmt),
    k + m ≤ code.length →
    g.nodes = code →
    g.succ.length = code.length →
    (∀ i, g.succ.getD i ∅ = partial_succ labels code k i) →
    add_edges_loop labels g (List.range' k m) = some g₂ →
    g₂.nodes = code ∧ g₂.succ.length = code.length ∧
    ∀ i, g₂.succ.getD i ∅ = partial_succ labels code (k + m) i := by
  intro m
  induction m with
  | zero =>
    intro k g g₂ hkm hnodes hlen hinv h
    cases h
    exact ⟨hnodes, hlen, fun i => hinv i⟩
  | succ m ihm =>
    intro k g g₂ hkm hnodes hlen hinv h
    rw [List.range'_succ] at h
    rw [add_edges_loop] at h
    cases hat : add_edges_at labels g k with
    | none => rw [hat] at h; exact Option.noConfusion h
    | some g₁ =>
      rw [hat] at h
      rw [add_edges_at] at hat
      cases hj : add_jump_edge labels g k with
      | none => rw [hj] at hat; exact Option.noConfusion hat
      | some gj =>
        rw [hj] at hat
        replace hat : add_fallthrough_edge gj k = some g₁ := hat
        have hk : k < code.length := by omega
        obtain ⟨hn1, hl1, hi1⟩ := add_jump_edge_char hk hnodes hlen hinv hj
        obtain ⟨hn2, hl2, hi2⟩ := add_fallthrough_edge_char hk hn1 hl1 hi1 hat
        have hrec := ihm (k + 1) g₁ g₂ (by omega) hn2 hl2 hi2 h
        have harith : k + 1 + m = k + (m + 1) := by omega
        rw [harith] at hrec
        exact hrec

theorem code_to_graph_succ_char {code : List Stmt} {g : DirectedGraph Stmt}
    (h : code_to_graph code = some g) :
    ∀ i, g.succ.getD i ∅ =
      partial_succ (code_to_graph_nodes code).2 code code.length i := by
  replace h : add_edges_loop (code_to_graph_nodes code).2 (code_to_graph_nodes code).1
      (List.range (code_to_graph_nodes code).1.len) = some g := h
  obtain ⟨hok, hnodes⟩ := code_to_graph_nodes_ok code
  have hsucc : (code_to_graph_nodes code).1.succ = List.replicate code.length ∅ := by
    rw [code_to_graph_nodes, ctg_succ_fold]
    rfl
  have hinv0 : ∀ i, (code_to_graph_nodes code).1.succ.getD i ∅ =
      partial_succ (code_to_graph_nodes code).2 code 0 i := by
    intro i
    rw [hsucc, getD_replicate_empty, partial_succ,
      if_neg (by omega), if_neg (fun hx => by have := hx.1; omega),
      Finset.union_empty]
  have hlen0 : (code_to_graph_nodes code).1.succ.length = code.length := by
    rw [hsucc, List.length_replicate]
  have hrange : List.range (code_to_graph_nodes code).1.len =
      List.range' 0 code.length := by
    rw [DirectedGraph.len, hnodes, List.range_eq_range']
  rw [hrange] at h
  have hmain := add_edges_loop_char (code_to_graph_nodes code).2 code code.length 0
    (code_to_graph_nodes code).1 g (by omega) hnodes hlen0 hinv0 h
  intro i
  have h2 := hmain.2.2 i
  rw [show 0 + code.length = code.length from by omega] at h2
  exact h2

theorem is_jump_uncond_false {s : Stmt} (h : s.is_jump = false) :
    is_jump_uncond (some s) = false := by
  cases s <;> first | rfl | simp [Stmt.is_jump] at h

/-! ### Invariants of the basic-block segmenter -/

theorem bbs_step_blocks (bbs : List BasicBlock) (curr : Option BasicBlock)
    (cnt : ℕ) (stmt : Stmt)
    (hbbs : ∀ bb ∈ bbs, (∃ L rest, bb.stmts = Stmt.Label L :: rest) ∧
      ∃ last, bb.stmts.getLast? = some last ∧ last.is_jump = true)
    (hcurr : ∀ bb, curr = some bb → ∃ L rest, bb.stmts = Stmt.Label L :: rest) :
    (∀ bb ∈ (bbs_step (bbs, curr, cnt) stmt).1,
      (∃ L rest, bb.stmts = Stmt.Label L :: rest) ∧
      ∃ last, bb.stmts.getLast? = some last ∧ last.is_jump = true) ∧
    (∀ bb, (bbs_step (bbs, curr, cnt) stmt).2.1 = some bb →
      ∃ L rest, bb.stmts = Stmt.Label L :: rest) := by
  cases curr with
  | some cb =>
    obtain ⟨L₀, rest₀, hcb⟩ := hcurr cb rfl
    have hextend : ∀ ext : List Stmt,
        ∃ L rest, (cb.stmts ++ ext) = Stmt.Label L :: rest := by
      intro ext
      rw [hcb]
      exact ⟨L₀, rest₀ ++ ext, rfl⟩
    have hpush : ∀ s : Stmt, s.is_jump = true →
        ∀ bb ∈ bbs ++ [(⟨cb.stmts ++ [s]⟩ : BasicBlock)],
        (∃ L rest, bb.stmts = Stmt.Label L :: rest) ∧
        ∃ last, bb.stmts.getLast? = some last ∧ last.is_jump = true := by
      intro s hjump bb hbb
      rcases List.mem_append.mp hbb with hold | hnew
      · exact hbbs bb hold
      · rw [List.mem_singleton.mp hnew]
        exact ⟨hextend [s], s, List.getLast?_concat _, hjump⟩
    cases stmt with
    | Label name =>
      refine ⟨hpush (Stmt.Jump name) rfl, ?_⟩
      intro bb hbb
      cases Option.some.inj hbb
      exact ⟨name, [], rfl⟩
    | Jump name =>
      exact ⟨hpush (Stmt.Jump name) rfl, fun bb hbb => Option.noConfusion hbb⟩
    | JumpIfZero e name =>
      exact ⟨hpush (Stmt.JumpIfZero e name) rfl, fun bb hbb => Option.noConfusion hbb⟩
    | Store loc e =>
      refine ⟨hbbs, ?_⟩
      intro bb hbb
      cases Option.some.inj hbb
      exact hextend [Stmt.Store loc e]
    | Expr e =>
      refine ⟨hbbs, ?_⟩
      intro bb hbb
      cases Option.some.inj hbb
      exact hextend [Stmt.Expr e]
    | Print e =>
      refine ⟨hbbs, ?_⟩
      intro bb hbb
      cases Option.some.inj hbb
      exact hextend [Stmt.Print e]
  | none =>
    cases stmt with
    | Label name =>
      refine ⟨hbbs, ?_⟩
      intro bb hbb
      cases Option.some.inj hbb
      exact ⟨name, [], rfl⟩
    | Store loc e =>
      refine ⟨hbbs, ?_⟩
      intro bb hbb
      cases Option.some.inj hbb
      exact ⟨cnt, [Stmt.Store loc e], rfl⟩
    | Expr e =>
      refine ⟨hbbs, ?_⟩
      intro bb hbb
      cases Option.some.inj hbb
      exact ⟨cnt, [Stmt.Expr e], rfl⟩
    | Jump name =>
      refine ⟨hbbs, ?_⟩
      intro bb hbb
      cases Option.some.inj hbb
      exact ⟨cnt, [Stmt.Jump name], rfl⟩
    | JumpIfZero e name =>
      refine ⟨hbbs, ?_⟩
      intro bb hbb
      cases Option.some.inj hbb
      exact ⟨cnt, [Stmt.JumpIfZero e name], rfl⟩
    | Print e =>
      refine ⟨hbbs, ?_⟩
      intro bb hbb
      cases Option.some.inj hbb
      exact ⟨cnt, [Stmt.Print e], rfl⟩

theorem bbs_loop_blocks (stmts : List Stmt) :
    ∀ (bbs : List BasicBlock) (curr : Option BasicBlock) (cnt : ℕ),
    (∀ bb ∈ bbs, (∃ L rest, bb.stmts = Stmt.Label L :: rest) ∧
      ∃ last, bb.stmts.getLast? = some last ∧ last.is_jump = true) →
    (∀ bb, curr = some bb → ∃ L rest, bb.stmts = Stmt.Label L :: rest) →
    (∀ bb ∈ (bbs_loop stmts (bbs, curr, cnt)).1,
      (∃ L rest, bb.stmts = Stmt.Label L :: rest) ∧
      ∃ last, bb.stmts.getLast? = some last ∧ last.is_jump = true) ∧
    (∀ bb, (bbs_loop stmts (bbs, curr, cnt)).2.1 = some bb →
      ∃ L rest, bb.stmts = Stmt.Label L :: rest) := by
  induction stmts with
  | nil =>
    intro bbs curr cnt hbbs hcurr
    exact ⟨hbbs, hcurr⟩
  | cons stmt rest ih =>
    intro bbs curr cnt hbbs hcurr
    rw [bbs_loop]
    obtain ⟨h1, h2⟩ := bbs_step_blocks bbs curr cnt stmt hbbs hcurr
    have := ih (bbs_step (bbs, curr, cnt) stmt).1 (bbs_step (bbs, curr, cnt) stmt).2.1
      (bbs_step (bbs, curr, cnt) stmt).2.2 h1 h2
    rw [show ((bbs_step (bbs, curr, cnt) stmt).1, (bbs_step (bbs, curr, cnt) stmt).2.1,
      (bbs_step (bbs, curr, cnt) stmt).2.2) = bbs_step (bbs, curr, cnt) stmt from rfl] at this
    exact this

theorem bbs_step_head (bbs : List BasicBlock) (curr : Option BasicBlock)
    (cnt : ℕ) (stmt : Stmt) (bb₀ : BasicBlock) (rest₀ : List BasicBlock)
    (h : bbs ++ curr.toList = bb₀ :: rest₀)
    (hne : ∀ bb, curr = some bb → bb.stmts ≠ []) :
    (∃ bb₁ rest₁,
      (bbs_step (bbs, curr, cnt) stmt).1 ++
        (bbs_step (bbs, curr, cnt) stmt).2.1.toList = bb₁ :: rest₁ ∧
      bb₁.stmts.head? = bb₀.stmts.head?) ∧
    (∀ bb, (bbs_step (bbs, curr, cnt) stmt).2.1 = some bb → bb.stmts ≠ []) := by
  cases curr with
  | some cb =>
    have hcb : cb.stmts ≠ [] := hne cb rfl
    obtain ⟨x, xs, hxs⟩ : ∃ x xs, cb.stmts = x :: xs := by
      cases hc : cb.stmts with
      | nil => exact absurd hc hcb
      | cons x xs => exact ⟨x, xs, rfl⟩
    have hhelp : ∀ (tail : List BasicBlock) (ext : List Stmt),
        ∃ bb₁ rest₁,
          bbs ++ (⟨cb.stmts ++ ext⟩ : BasicBlock) :: tail = bb₁ :: rest₁ ∧
          bb₁.stmts.head? = bb₀.stmts.head? := by
      intro tail ext
      cases bbs with
      | nil =>
        have hcb₀ : cb = bb₀ := by
          have := List.cons.inj h
          exact this.1
        refine ⟨⟨cb.stmts ++ ext⟩, tail, rfl, ?_⟩
        rw [← hcb₀, hxs]
        rfl
      | cons b bs =>
        have hb : b = bb₀ := (List.cons.inj h).1
        exact ⟨b, bs ++ (⟨cb.stmts ++ ext⟩ : BasicBlock) :: tail, rfl, by rw [hb]⟩
    cases stmt with
    | Label name =>
      refine ⟨?_, ?_⟩
      · show ∃ bb₁ rest₁,
          (bbs ++ [(⟨cb.stmts ++ [Stmt.Jump name]⟩ : BasicBlock)]) ++
            [(⟨[Stmt.Label name]⟩ : BasicBlock)] = bb₁ :: rest₁ ∧
          bb₁.stmts.head? = bb₀.stmts.head?
        rw [List.append_assoc]
        exact hhelp [⟨[Stmt.Label name]⟩] [Stmt.Jump name]
      · intro bb hbb
        cases Option.some.inj hbb
        exact List.cons_ne_nil _ _
    | Jump name =>
      refine ⟨?_, fun bb hbb => Option.noConfusion hbb⟩
      show ∃ bb₁ rest₁,
        (bbs ++ [(⟨cb.stmts ++ [Stmt.Jump name]⟩ : BasicBlock)]) ++
          ([] : List BasicBlock) = bb₁ :: rest₁ ∧
        bb₁.stmts.head? = bb₀.stmts.head?
      rw [List.append_nil]
      exact hhelp [] [Stmt.Jump name]
    | JumpIfZero e name =>
      refine ⟨?_, fun bb hbb => Option.noConfusion hbb⟩
      show ∃ bb₁ rest₁,
        (bbs ++ [(⟨cb.stmts ++ [Stmt.JumpIfZero e name]⟩ : BasicBlock)]) ++
          ([] : List BasicBlock) = bb₁ :: rest₁ ∧
        bb₁.stmts.head? = bb₀.stmts.head?
      rw [List.append_nil]
      exact hhelp [] [Stmt.JumpIfZero e name]
    | Store loc e =>
      refine ⟨hhelp [] [Stmt.Store loc e], ?_⟩
      intro bb hbb
      cases Option.some.inj hbb
      rw [hxs]
      exact List.cons_ne_nil _ _
    | Expr e =>
      refine ⟨hhelp [] [Stmt.Expr e], ?_⟩
      intro bb hbb
      cases Option.some.inj hbb
      rw [hxs]
      exact List.cons_ne_nil _ _
    | Print e =>
      refine ⟨hhelp [] [Stmt.Print e], ?_⟩
      intro bb hbb
      cases Option.some.inj hbb
      rw [hxs]
      exact List.cons_ne_nil _ _
  | none =>
    rw [show (none : Option BasicBlock).toList = [] from rfl, List.append_nil] at h
    have hhelp : ∀ nb : BasicBlock,
        ∃ bb₁ rest₁, bbs ++ [nb] = bb₁ :: rest₁ ∧
          bb₁.stmts.head? = bb₀.stmts.head? := by
      intro nb
      rw [h]
      exact ⟨bb₀, rest₀ ++ [nb], by simp, rfl⟩
    cases stmt with
    | Label name =>
      exact ⟨hhelp ⟨[Stmt.Label name]⟩, fun bb hbb => by
        cases Option.some.inj hbb
        exact List.cons_ne_nil _ _⟩
    | Store loc e =>
      exact ⟨hhelp ⟨[Stmt.Label cnt, Stmt.Store loc e]⟩, fun bb hbb => by
        cases Option.some.inj hbb
        exact List.cons_ne_nil _ _⟩
    | Expr e =>
      exact ⟨hhelp ⟨[Stmt.Label cnt, Stmt.Expr e]⟩, fun bb hbb => by
        cases Option.some.inj hbb
        exact List.cons_ne_nil _ _⟩
    | Jump name =>
      exact ⟨hhelp ⟨[Stmt.Label cnt, Stmt.Jump name]⟩, fun bb hbb => by
        cases Option.some.inj hbb
        exact List.cons_ne_nil _ _⟩
    | JumpIfZero e name =>
      exact ⟨hhelp ⟨[Stmt.Label cnt, Stmt.JumpIfZero e name]⟩, fun bb hbb => by
        cases Option.some.inj hbb
        exact List.cons_ne_nil _ _⟩
    | Print e =>
      exact ⟨hhelp ⟨[Stmt.Label cnt, Stmt.Print e]⟩, fun bb hbb => by
        cases Option.some.inj hbb
        exact List.cons_ne_nil _ _⟩

theorem bbs_loop_head (stmts : List Stmt) :
    ∀ (bbs : List BasicBlock) (curr : Option BasicBlock) (cnt : ℕ)
      (bb₀ : BasicBlock) (rest₀ : List BasicBlock),
    bbs ++ curr.toList = bb₀ :: rest₀ →
    (∀ bb, curr = some bb → bb.stmts ≠ []) →
    ∃ bb₁ rest₁,
      (bbs_loop stmts (bbs, curr, cnt)).1 ++
        (bbs_loop stmts (bbs, curr, cnt)).2.1.toList = bb₁ :: rest₁ ∧
      bb₁.stmts.head? = bb₀.stmts.head? := by
  induction stmts with
  | nil =>
    intro bbs curr cnt bb₀ rest₀ h hne
    exact ⟨bb₀, rest₀, h, rfl⟩
  | cons stmt rest ih =>
    intro bbs curr cnt bb₀ rest₀ h hne
    rw [bbs_loop]
    obtain ⟨⟨bbm, restm, hm, hheadm⟩, hnem⟩ := bbs_step_head bbs curr cnt stmt bb₀ rest₀ h hne
    have hrec := ih (bbs_step (bbs, curr, cnt) stmt).1 (bbs_step (bbs, curr, cnt) stmt).2.1
      (bbs_step (bbs, curr, cnt) stmt).2.2 bbm restm hm hnem
    rw [show ((bbs_step (bbs, curr, cnt) stmt).1, (bbs_step (bbs, curr, cnt) stmt).2.1,
      (bbs_step (bbs, curr, cnt) stmt).2.2) = bbs_step (bbs, curr, cnt) stmt from rfl] at hrec
    obtain ⟨bb₁, rest₁, h1, h2⟩ := hrec
    exact ⟨bb₁, rest₁, h1, h2.trans hheadm⟩

/-! ### Claims -/

theorem Optimizer.new_some {code : List Stmt} {o : Optimizer}
    (h : Optimizer.new code = some o) :
    ∃ g, code_to_graph code = some g ∧ o.code = g ∧
      o.in_defs = List.replicate code.length ∅ ∧
      o.out_defs = List.replicate code.length ∅ := by
  rw [Optimizer.new] at h
  cases hg : code_to_graph code with
  | none => rw [hg] at h; exact Option.noConfusion h
  | some g =>
    rw [hg] at h
    cases Option.some.inj h
    exact ⟨g, rfl, rfl, rfl, rfl⟩

/-- Claim C5: when the reaching-definitions iteration stops, the solution is a
fixed point: for every node `i`, `IN[i] = ⋃_{p ∈ pred(i)} OUT[p]`, and
`OUT[i] = gen[i] ∪ (IN[i] \ kill[i])` with `gen[i] = {i}` and
`kill[i] = defs[slot] \ {i}` exactly when node `i` is `Store(slot, _)`, both
empty otherwise; consequently `OUT[p] ⊆ IN[q]` for every CFG edge `p → q`. -/
theorem claim5_rd_fixed_point (code : List Stmt) (fuel : ℕ) (o o₂ : Optimizer)
    (hnew : Optimizer.new code = some o)
    (hcalc : calc_reaching_definition fuel o = some o₂) :
    (∀ i, i < o₂.code.len →
      (o₂.in_defs[i]? =
        some ((o₂.code.pred_indexes i).sup fun p => o₂.out_defs.getD p ∅)) ∧
      (∀ loc e, o₂.code.nodes[i]? = some (Stmt.Store loc e) →
        ∃ dl, assocGet o₂.defs loc = some dl ∧
          o₂.out_defs[i]? = some ({i} ∪ (o₂.in_defs.getD i ∅ \ (dl \ {i})))) ∧
      ((∀ loc e, o₂.code.nodes[i]? ≠ some (Stmt.Store loc e)) →
        o₂.out_defs[i]? =
          some ((∅ : Finset ℕ) ∪ (o₂.in_defs.getD i ∅ \ (∅ : Finset ℕ))))) ∧
    (∀ p q, q ∈ o₂.code.succ_indexes p →
      o₂.out_defs.getD p ∅ ⊆ o₂.in_defs.getD q ∅) := by
  obtain ⟨g, hg, hcode, hin, hout⟩ := Optimizer.new_some hnew
  obtain ⟨hok, hnodes⟩ := code_to_graph_ok hg
  rw [calc_reaching_definition] at hcalc
  obtain ⟨c1, c2, c3, c4, c5⟩ := rd_loop_fields hcalc
  have hcode2 : o₂.code = g := c1.trans hcode
  have hlen1 : o₂.in_defs.length = code.length := by
    rw [c4, show o.populate.in_defs = o.in_defs from rfl, hin, List.length_replicate]
  have hlen2 : o₂.out_defs.length = code.length := by
    rw [c5, show o.populate.out_defs = o.out_defs from rfl, hout, List.length_replicate]
  have hlencode : o₂.code.len = code.length := by
    rw [hcode2, DirectedGraph.len, hnodes]
  have hfix := rd_loop_fix hcalc
  refine ⟨?_, ?_⟩
  · intro i hi
    obtain ⟨gk, hgk, hpin, hpout⟩ := rd_pass_fix hfix hi (by omega) (by omega)
    have hgetD : o₂.in_defs.getD i ∅ = rd_new_in o₂ i := by
      rw [List.getD_eq_getElem?_getD, hpin]
      rfl
    refine ⟨hpin, ?_, ?_⟩
    · intro loc e hnode
      rw [rd_gen_kill, hnode] at hgk
      replace hgk : (match assocGet o₂.defs loc with
        | some dl => some (({i} : Finset ℕ), dl \ {i})
        | none => none) = some gk := hgk
      cases hdl : assocGet o₂.defs loc with
      | none => rw [hdl] at hgk; exact Option.noConfusion hgk
      | some dl =>
        rw [hdl] at hgk
        cases Option.some.inj hgk
        refine ⟨dl, rfl, ?_⟩
        rw [hgetD]
        exact hpout
    · intro hnostore
      have hib : i < o₂.code.nodes.length := hi
      obtain ⟨s, hs⟩ : ∃ s, o₂.code.nodes[i]? = some s :=
        ⟨_, List.getElem?_eq_getElem hib⟩
      rw [rd_gen_kill, hs] at hgk
      cases s <;>
        first
        | exact absurd hs (hnostore _ _)
        | (cases Option.some.inj hgk; rw [hgetD]; exact hpout)
  · intro p q hq
    have hok2 : edges_ok o₂.code := by rw [hcode2]; exact hok
    obtain ⟨e1, e2, e3, e4⟩ := hok2
    obtain ⟨hplt, hqlt, hpred⟩ := e3 p q hq
    have hlq : q < o₂.code.len := hqlt
    obtain ⟨gk, hgk, hpin, hpout⟩ := rd_pass_fix hfix hlq (by omega) (by omega)
    have hgetD : o₂.in_defs.getD q ∅ = rd_new_in o₂ q := by
      rw [List.getD_eq_getElem?_getD, hpin]
      rfl
    have hpred2 : p ∈ o₂.code.pred_indexes q := hpred
    rw [hgetD, rd_new_in]
    exact Finset.le_sup (f := fun p => o₂.out_defs.getD p ∅) hpred2

/-- Witness for C5: the fixed-point property instantiated on `prog5`, a
program with a conditional jump (node 3 has the two predecessors 1 and 2). -/
theorem claim5_rd_fixed_point_witness :
    Optimizer.new prog5 = some o5 ∧
    calc_reaching_definition 10 o5 = some o5fix ∧
    ((∀ i, i < o5fix.code.len →
      (o5fix.in_defs[i]? =
        some ((o5fix.code.pred_indexes i).sup fun p => o5fix.out_defs.getD p ∅)) ∧
      (∀ loc e, o5fix.code.nodes[i]? = some (Stmt.Store loc e) →
        ∃ dl, assocGet o5fix.defs loc = some dl ∧
          o5fix.out_defs[i]? = some ({i} ∪ (o5fix.in_defs.getD i ∅ \ (dl \ {i})))) ∧
      ((∀ loc e, o5fix.code.nodes[i]? ≠ some (Stmt.Store loc e)) →
        o5fix.out_defs[i]? =
          some ((∅ : Finset ℕ) ∪ (o5fix.in_defs.getD i ∅ \ (∅ : Finset ℕ))))) ∧
    (∀ p q, q ∈ o5fix.code.succ_indexes p →
      o5fix.out_defs.getD p ∅ ⊆ o5fix.in_defs.getD q ∅)) :=
  ⟨by decide, by decide,
    claim5_rd_fixed_point prog5 10 o5 o5fix (by decide) (by decide)⟩


/-- Claim C1 (code_bug).  The claim asserts semantic preservation: for every
program and slot, `optimize(P)` and `P` produce the same sequences of stored
and printed values.  On `prog1` the copy-propagation safety test passes
although slot 1 is redefined between the copy (index 2) and the use
(index 7), because the redefinition also reaches the defining site around the
never-executed back edge.  The original execution stores `5` to slot 3; the
optimized one stores `9`. -/
theorem claim1_semantic_preservation_violated :
    optimize 100 prog1 = some prog1_opt ∧
    (run_program 1000 prog1).map (stored_values 3) = some [5] ∧
    (run_program 1000 prog1_opt).map (stored_values 3) = some [9] := by
  refine ⟨by decide, by decide, by decide⟩

/-- Claim C2 (code_bug).  The claimed rewrite rule says that when the unique
reaching definition of the use `LoadCopy(1)` at index 1 is
`Store(1, LoadCopy(-1))` and the safety test `(IN[i] ∩ defs[-1]) \
(defs[-1] ∩ IN[d]) = ∅` holds (vacuously, slot `-1` has no definitions), the
expression is replaced by `LoadCopy(-1)`.  Instead `optimize_expr` evaluates
`self.defs[&-1]`, a missing key, and the process aborts: `optimize` produces
no output at all. -/
theorem claim2_copy_prop_rule_panics : optimize 100 prog2 = none := by decide

/-- Claim C3 (code_bug).  The claim says `optimize` completes without aborting
on programs reading never-stored slots, also when a unique reaching
definition's right-hand side is a `LoadCopy` of such a slot (end-to-end
scenario 1 = `prog3`).  The direct load of slot `-1` is indeed left unchanged
(first conjunct, at statement 2), but rewriting the trailing expression's
`LoadCopy(1)` aborts on the missing `defs` key `-1`, so `optimize` panics on
scenario 1 instead of completing. -/
theorem claim3_never_stored_slot_panics :
    ((Optimizer.new prog3).bind (calc_reaching_definition 100)).bind
        (fun o => o.optimize_expr 2 (Expr.LoadCopy (-1))) =
      some (Expr.LoadCopy (-1)) ∧
    optimize 100 prog3 = none := by
  refine ⟨by decide, by decide⟩

/-- Claim C4 (corrected), counterexample.  The claim states that `optimize`
maps `prog4` to `prog4_claimed` (fourth statement folded to `Int 25`); the
code instead copy-propagates `LoadCopy(1)` to `LoadCopy(0)` before the
constant check, yielding `prog4_actual`. -/
theorem claim4_counterexample :
    optimize 100 prog4 = some prog4_actual ∧ prog4_actual ≠ prog4_claimed := by
  refine ⟨by decide, by decide⟩

/-- Claim C4 (corrected), amended statement: the third statement's right-hand
side becomes `Int 20` by constant propagation, while the fourth statement's
`LoadCopy(1)` is replaced by `LoadCopy(0)` (copy propagation fires first and
returns), so the fourth right-hand side is `Add(LoadCopy(0), Int 5)`, not
`Int 25`. -/
theorem claim4_amended_result : optimize 100 prog4 = some prog4_actual := by decide

/-- Claim C7 (corrected), counterexample to idempotence: `optimize` succeeds
on `prog4` and on its own output, and the two results differ (the second
application constant-folds the fourth statement to `Int 25`). -/
theorem claim7_counterexample :
    optimize 100 prog4 = some prog4_actual ∧
    optimize 100 prog4_actual = some prog4_twice ∧
    prog4_twice ≠ prog4_actual := by
  refine ⟨by decide, by decide, by decide⟩

/-- Claim C7 (corrected), amended statement: `optimize` is not idempotent; a
second application can rewrite further (copy propagation in pass one exposes
constant propagation in pass two).  On `prog4` the process stabilizes at the
third application. -/
theorem claim7_amended :
    optimize 100 prog4_actual = some prog4_twice ∧
    optimize 100 prog4_twice = some prog4_twice := by
  refine ⟨by decide, by decide⟩

/-- Claim C8 (corrected), counterexample: on a program declaring the same
label twice, `code_to_graph` does not fail; it produces a graph. -/
theorem claim8_counterexample :
    (code_to_graph [Stmt.Label 0, Stmt.Label 0]).isSome = true := by decide

/-- Claim C8 (corrected), amended statement: duplicate label declarations are
not detected; `HashMap::insert` keeps the index of the last declaration, and
jump edges resolve to it (the `Jump` at index 2 gets the edge to node 1, the
second `Label 0`). -/
theorem claim8_amended :
    (code_to_graph [Stmt.Label 0, Stmt.Label 0, Stmt.Jump 0]).map
        (fun g => g.succ_indexes 2) = some {1} := by decide

/-- Claim C6: in the CFG built from a well-formed program of `n` statements:
a `Jump(L)` at index `i` has `succ(i) = {idx(L)}` where `idx(L)` is the index
of the `Label(L)` statement; a `JumpIfZero(_, L)` at `i` with `i + 1 < n` has
`succ(i) = {idx(L), i+1}`; every other statement at `i` with `i + 1 < n` has
the fall-through successor `i + 1`. -/
theorem claim6_cfg_edges (code : List Stmt) (g : DirectedGraph Stmt)
    (hwf : wf_labels code) (hg : code_to_graph code = some g) :
    (∀ i name j, code[i]? = some (Stmt.Jump name) →
      code[j]? = some (Stmt.Label name) → g.succ_indexes i = {j}) ∧
    (∀ i e name j, code[i]? = some (Stmt.JumpIfZero e name) →
      i + 1 < code.length → code[j]? = some (Stmt.Label name) →
      g.succ_indexes i = {j, i + 1}) ∧
    (∀ i s, code[i]? = some s → s.is_jump = false → i + 1 < code.length →
      i + 1 ∈ g.succ_indexes i) := by
  have hchar := code_to_graph_succ_char hg
  have hlab := ctg_labels_char hwf.1
  refine ⟨?_, ?_, ?_⟩
  · intro i name j hi hj
    rw [DirectedGraph.succ_indexes, hchar i, partial_succ]
    have hil : i < code.length := getElem?_some_lt hi
    have hjp : jump_part (code_to_graph_nodes code).2 code i = {j} := by
      have h1 : jump_part (code_to_graph_nodes code).2 code i =
          (match assocGet (code_to_graph_nodes code).2 name with
            | some dest => ({dest} : Finset ℕ)
            | none => ∅) := by
        rw [jump_part, hi]
      rw [h1, (hlab name j).mpr hj]
    rw [if_pos (by omega), hjp,
      if_neg (fun hx => by
        have h2 := hx.2
        rw [show is_jump_uncond code[i]? = true from by rw [hi]; rfl] at h2
        exact Bool.noConfusion h2)]
    exact Finset.union_empty {j}
  · intro i e name j hi hlt hj
    rw [DirectedGraph.succ_indexes, hchar i, partial_succ]
    have hil : i < code.length := getElem?_some_lt hi
    have hjp : jump_part (code_to_graph_nodes code).2 code i = {j} := by
      have h1 : jump_part (code_to_graph_nodes code).2 code i =
          (match assocGet (code_to_graph_nodes code).2 name with
            | some dest => ({dest} : Finset ℕ)
            | none => ∅) := by
        rw [jump_part, hi]
      rw [h1, (hlab name j).mpr hj]
    rw [if_pos (by omega), hjp,
      if_pos (show i + 1 < code.length ∧ is_jump_uncond code[i]? = false from
        ⟨hlt, by rw [hi]; rfl⟩),
      ← Finset.insert_eq]
  · intro i s hi hs hlt
    rw [DirectedGraph.succ_indexes, hchar i, partial_succ,
      if_pos (show i + 1 < code.length ∧ is_jump_uncond code[i]? = false from
        ⟨hlt, by rw [hi]; exact is_jump_uncond_false hs⟩)]
    exact Finset.mem_union_right _ (Finset.mem_singleton_self (i + 1))

/-- Witness for C6: the edge shapes instantiated on `prog6` and its CFG `g6`:
the `Jump` at index 3, the `JumpIfZero` at index 0 and the plain statement at
index 1 (the `Label(5)` declaration is at index 2). -/
theorem claim6_cfg_edges_witness :
    wf_labels prog6 ∧ code_to_graph prog6 = some g6 ∧
    ((∀ i name j, prog6[i]? = some (Stmt.Jump name) →
      prog6[j]? = some (Stmt.Label name) → g6.succ_indexes i = {j}) ∧
    (∀ i e name j, prog6[i]? = some (Stmt.JumpIfZero e name) →
      i + 1 < prog6.length → prog6[j]? = some (Stmt.Label name) →
      g6.succ_indexes i = {j, i + 1}) ∧
    (∀ i s, prog6[i]? = some s → s.is_jump = false → i + 1 < prog6.length →
      i + 1 ∈ g6.succ_indexes i)) :=
  ⟨⟨by decide, by decide⟩, by decide,
    claim6_cfg_edges prog6 g6 ⟨by decide, by decide⟩ (by decide)⟩

/-- Claim C9: on constant expressions `to_value` evaluates with wrapping
two's-complement 64-bit `+` and `*`: a constant expression (with `i64`
literals) evaluates to an in-range value, and for constant `a`, `b` the values
of `Add a b` and `Mul a b` are congruent to the exact sum and product modulo
`2 ^ 64`. -/
theorem claim9_to_value (e a b : Expr) (he : e.is_const = true) (hw : e.wf64 = true)
    (ha : a.is_const = true) (hb : b.is_const = true) :
    (∃ v, e.to_value = some v ∧ -(2 ^ 63) ≤ v ∧ v < 2 ^ 63) ∧
    ∃ va vb, a.to_value = some va ∧ b.to_value = some vb ∧
      (Expr.Add a b).to_value = some (wrap64 (va + vb)) ∧
      (Expr.Mul a b).to_value = some (wrap64 (va * vb)) ∧
      wrap64 (va + vb) % 2 ^ 64 = (va + vb) % 2 ^ 64 ∧
      wrap64 (va * vb) % 2 ^ 64 = (va * vb) % 2 ^ 64 ∧
      -(2 ^ 63) ≤ wrap64 (va + vb) ∧ wrap64 (va + vb) < 2 ^ 63 ∧
      -(2 ^ 63) ≤ wrap64 (va * vb) ∧ wrap64 (va * vb) < 2 ^ 63 := by
  refine ⟨to_value_const e he hw, ?_⟩
  obtain ⟨va, hva⟩ := to_value_isSome a ha
  obtain ⟨vb, hvb⟩ := to_value_isSome b hb
  refine ⟨va, vb, hva, hvb, ?_, ?_, wrap64_mod _, wrap64_mod _,
    (wrap64_bounds _).1, (wrap64_bounds _).2, (wrap64_bounds _).1, (wrap64_bounds _).2⟩
  · rw [Expr.to_value, hva, hvb]; rfl
  · rw [Expr.to_value, hva, hvb]; rfl

/-- Witness for C9 at concrete constant expressions, including an overflowing
addition: `(2^63 - 1) + 1` wraps to `-2^63`. -/
theorem claim9_to_value_witness :
    (Expr.Add (Expr.Int 3) (Expr.Int 4)).is_const = true ∧
    (Expr.Add (Expr.Int 3) (Expr.Int 4)).wf64 = true ∧
    (Expr.Int (2 ^ 63 - 1)).is_const = true ∧
    (Expr.Int 1).is_const = true ∧
    ((∃ v, (Expr.Add (Expr.Int 3) (Expr.Int 4)).to_value = some v ∧
        -(2 ^ 63) ≤ v ∧ v < 2 ^ 63) ∧
      ∃ va vb, (Expr.Int (2 ^ 63 - 1)).to_value = some va ∧
        (Expr.Int 1).to_value = some vb ∧
        (Expr.Add (Expr.Int (2 ^ 63 - 1)) (Expr.Int 1)).to_value =
          some (wrap64 (va + vb)) ∧
        (Expr.Mul (Expr.Int (2 ^ 63 - 1)) (Expr.Int 1)).to_value =
          some (wrap64 (va * vb)) ∧
        wrap64 (va + vb) % 2 ^ 64 = (va + vb) % 2 ^ 64 ∧
        wrap64 (va * vb) % 2 ^ 64 = (va * vb) % 2 ^ 64 ∧
        -(2 ^ 63) ≤ wrap64 (va + vb) ∧ wrap64 (va + vb) < 2 ^ 63 ∧
        -(2 ^ 63) ≤ wrap64 (va * vb) ∧ wrap64 (va * vb) < 2 ^ 63) :=
  ⟨by decide, by decide, by decide, by decide,
    claim9_to_value (Expr.Add (Expr.Int 3) (Expr.Int 4)) (Expr.Int (2 ^ 63 - 1))
      (Expr.Int 1) (by decide) (by decide) (by decide) (by decide)⟩

/-- Claim C10 (corrected), counterexample: on `[Store(0, Int 0)]` the single
block returned by `stmts_to_bbs` ends with the `Store`, which is not a jump. -/
theorem claim10_counterexample :
    (stmts_to_bbs [Stmt.Store 0 (Expr.Int 0)] 0).1 =
      [⟨[Stmt.Label 0, Stmt.Store 0 (Expr.Int 0)]⟩] ∧
    (Stmt.Store 0 (Expr.Int 0)).is_jump = false := by
  refine ⟨by decide, by decide⟩

/-- Claim C10 (corrected), amended statement: every block produced by
`stmts_to_bbs` begins with a `Label` statement; every block except possibly
the last ends with a jump (`Jump` or `JumpIfZero`); and when the first input
statement is not a label, the first block begins with the freshly minted
label `counter`. -/
theorem claim10_amended (stmts : List Stmt) (c : ℕ) :
    (∀ bb ∈ (stmts_to_bbs stmts c).1, ∃ L rest, bb.stmts = Stmt.Label L :: rest) ∧
    (∀ k bb, k + 1 < (stmts_to_bbs stmts c).1.length →
      ((stmts_to_bbs stmts c).1)[k]? = some bb →
      ∃ last, bb.stmts.getLast? = some last ∧ last.is_jump = true) ∧
    (∀ s, stmts.head? = some s → s.is_label = false →
      ∃ bb rest, (stmts_to_bbs stmts c).1 = bb :: rest ∧
        ∃ rest₂, bb.stmts = Stmt.Label c :: rest₂) := by
  obtain ⟨hblocks, hcurr⟩ := bbs_loop_blocks stmts [] none c
    (fun bb hbb => absurd hbb (List.not_mem_nil bb))
    (fun bb hbb => Option.noConfusion hbb)
  have hres : (stmts_to_bbs stmts c).1 =
      (bbs_loop stmts ([], none, c)).1 ++
        (bbs_loop stmts ([], none, c)).2.1.toList := rfl
  refine ⟨?_, ?_, ?_⟩
  · intro bb hbb
    rw [hres] at hbb
    rcases List.mem_append.mp hbb with hl | hr
    · exact (hblocks bb hl).1
    · have hsome : (bbs_loop stmts ([], none, c)).2.1 = some bb := by
        cases hc2 : (bbs_loop stmts ([], none, c)).2.1 with
        | none =>
          rw [hc2] at hr
          exact absurd hr (List.not_mem_nil bb)
        | some bb₂ =>
          rw [hc2] at hr
          rw [List.mem_singleton.mp hr]
      exact hcurr bb hsome
  · intro k bb hk hbb
    rw [hres] at hbb hk
    have hkl : k < (bbs_loop stmts ([], none, c)).1.length := by
      rw [List.length_append] at hk
      have hle : (bbs_loop stmts ([], none, c)).2.1.toList.length ≤ 1 := by
        cases (bbs_loop stmts ([], none, c)).2.1 <;> simp
      omega
    rw [getElem?_append_lt _ _ _ hkl] at hbb
    exact (hblocks bb (List.getElem?_mem hbb)).2
  · intro s hs hsl
    obtain ⟨rest, rfl⟩ : ∃ rest, stmts = s :: rest := by
      cases stmts with
      | nil => exact Option.noConfusion hs
      | cons a rest => exact ⟨rest, by rw [Option.some.inj hs]⟩
    have hstep : bbs_step (([] : List BasicBlock), (none : Option BasicBlock), c) s =
        ([], some ⟨[Stmt.Label c, s]⟩, c + 1) := by
      have h1 : bbs_step (([] : List BasicBlock), (none : Option BasicBlock), c) s =
          (if s.is_label then ([], some ⟨[s]⟩, c)
            else ([], some ⟨[Stmt.Label c, s]⟩, c + 1)) := rfl
      rw [h1, hsl]
      rfl
    have hloop : bbs_loop (s :: rest) ([], none, c) =
        bbs_loop rest ([], some ⟨[Stmt.Label c, s]⟩, c + 1) := by
      rw [bbs_loop, hstep]
    obtain ⟨bb₁, rest₁, h1, h2⟩ := bbs_loop_head rest [] (some ⟨[Stmt.Label c, s]⟩)
      (c + 1) ⟨[Stmt.Label c, s]⟩ [] rfl (fun bb hbb => by
        cases Option.some.inj hbb
        exact List.cons_ne_nil _ _)
    have hfinal : (stmts_to_bbs (s :: rest) c).1 = bb₁ :: rest₁ := by
      rw [hres, hloop]
      exact h1
    have hhead : bb₁.stmts.head? = some (Stmt.Label c) := h2
    obtain ⟨tail, htail⟩ : ∃ tail, bb₁.stmts = Stmt.Label c :: tail := by
      cases hbs : bb₁.stmts with
      | nil =>
        rw [hbs] at hhead
        exact Option.noConfusion hhead
      | cons a tail =>
        rw [hbs] at hhead
        exact ⟨tail, by rw [Option.some.inj hhead]⟩
    exact ⟨bb₁, rest₁, hfinal, tail, htail⟩

/-- Witness for the amended C10, instantiated on `prog10` with counter 4: its
segmentation is `[[Label 4, Store(0, Int 1), Jump 9], [Label 5, Store(1, Int 2)]]`. -/
theorem claim10_amended_witness :
    (stmts_to_bbs prog10 4 =
      ([⟨[Stmt.Label 4, Stmt.Store 0 (Expr.Int 1), Stmt.Jump 9]⟩,
        ⟨[Stmt.Label 5, Stmt.Store 1 (Expr.Int 2)]⟩], 6)) ∧
    ((∀ bb ∈ (stmts_to_bbs prog10 4).1, ∃ L rest, bb.stmts = Stmt.Label L :: rest) ∧
    (∀ k bb, k + 1 < (stmts_to_bbs prog10 4).1.length →
      ((stmts_to_bbs prog10 4).1)[k]? = some bb →
      ∃ last, bb.stmts.getLast? = some last ∧ last.is_jump = true) ∧
    (∀ s, prog10.head? = some s → s.is_label = false →
      ∃ bb rest, (stmts_to_bbs prog10 4).1 = bb :: rest ∧
        ∃ rest₂, bb.stmts = Stmt.Label 4 :: rest₂)) :=
  ⟨by decide, claim10_amended prog10 4⟩


end OptForLang2
